import Mathlib

/-!
Verification of the dream-lock reconciliation core of `apps/cli/commands/package.py`
(the `PackageCommand.handle` pipeline).

The Python dictionaries that make up the lock document are modelled as
insertion-ordered association lists (Python dicts preserve insertion order and
have unique keys), strings as Lean `String` (both are sequences of unicode
code points, compared code-point-wise), and the in-memory `networkx` directed
graph as its edge list in insertion order.
-/

namespace DreamPkg

/-- Package name, an opaque string. -/
abbrev PName := String

/-- Package version, an opaque string. -/
abbrev PVer := String

/-- Graph node: a `(name, version)` pair, as used by the cycle-removal code
(`key = (pname, version)`). -/
abbrev GNode := PName × PVer

/-- Directed dependency edge `(from, to)`, as stored in the `edges` set
(`((pname, version), tuple(dep))`). -/
abbrev GEdge := GNode × GNode

/-- Dependency list of one `(name, version)` entry: the raw list of
`[name, version]` pairs the translator declared. -/
abbrev Deps := List GNode

/-- Version-to-dependency-list map of one package name. -/
abbrev VerMap := List (PVer × Deps)

/-- Raw dependency map `lock['_generic']['dependencies']`:
name -> version -> list of nodes. -/
abbrev DepGraph := List (PName × VerMap)

/-- Resolved source descriptor: a dictionary of string fields such as
`type`, `url`, `hash`. -/
abbrev SourceSpec := List (String × String)

/-- The lock's `sources` table: name -> version -> source spec. -/
abbrev Sources := List (PName × List (PVer × SourceSpec))

/-- The `cyclicDependencies` ledger: origin name -> origin version -> list of
target nodes of the edges removed from the live graph. -/
abbrev CycDeps := List (PName × List (PVer × List GNode))

instance : DecidableEq VerMap :=
  inferInstance

instance : DecidableEq (PName × VerMap) :=
  inferInstance

instance : DecidableEq DepGraph :=
  inferInstance

instance : DecidableEq (Option DepGraph) :=
  inferInstance

/-- The `_generic` section of the lock. `dependencies` is optional: the code
guards the whole cleanup/cycle stage on `'dependencies' in lock['_generic']`.
`sourcesCombinedHash` is `none` when the key is absent. -/
structure Generic where
  mainPackageName : PName
  mainPackageVersion : PVer
  translatedBy : String
  translatorParams : String
  sourcesCombinedHash : Option String
  dependencies : Option DepGraph
  deriving Repr, DecidableEq

/-- The dream-lock document. `cyclicDependencies = none` models absence of the
key (the raw translator output per the spec's Raw Lock Ingestion stage carries
only dependency lists and generic metadata). -/
structure DreamLock where
  generic : Generic
  sources : Sources
  cyclicDependencies : Option CycDeps
  deriving Repr, DecidableEq

/-! ## Extra-argument processing (package.py lines 166-192) -/

/-- Declared type of a translator extra argument: `'flag'` or anything else
(the code only tests `== 'flag'`). -/
inductive ArgKind where
  | flag : ArgKind
  | value : ArgKind
  deriving Repr, DecidableEq

/-- Value of a processed extra argument: after the flag-conversion passes a
value is either a Python bool or still a string. -/
inductive ArgVal where
  | b : Bool → ArgVal
  | s : String → ArgVal
  deriving Repr, DecidableEq

/-- Declared kind of `n` in the translator's `extraArgs` schema; total because
it is only consulted after the unknown-name check passed. -/
def kindOf (schema : List (String × ArgKind)) (n : String) : ArgKind :=
  (schema.lookup n).getD ArgKind.value

/-- Model of Python `str.lower()` as used on flag values (character-wise
lowering; agrees with Python on the ASCII spellings the comparison lists
contain). -/
def strLower (s : String) : String :=
  String.mk (s.data.map Char.toLower)

/-- First conversion pass (lines 178-189): a specified value for a `flag`
argument is turned into a bool when it is a recognized yes/no spelling;
otherwise an "Invalid value" message is printed to stderr and the value is
left as the original string (the code does not exit here). Returns the
updated argument list together with the printed messages. -/
def flagPass (schema : List (String × ArgKind)) (args : List (String × String)) :
    List (String × ArgVal) × List String :=
  args.foldl
    (fun acc p =>
      match kindOf schema p.1 with
      | ArgKind.flag =>
        if strLower p.2 ∈ ["yes", "y", "true"] then
          (acc.1 ++ [(p.1, ArgVal.b true)], acc.2)
        else if strLower p.2 ∈ ["no", "n", "false"] then
          (acc.1 ++ [(p.1, ArgVal.b false)], acc.2)
        else
          (acc.1 ++ [(p.1, ArgVal.s p.2)],
           acc.2 ++ ["Invalid value " ++ p.2 ++ " for argument " ++ p.1])
      | ArgKind.value => (acc.1 ++ [(p.1, ArgVal.s p.2)], acc.2))
    ([], [])

/-- Second pass (lines 190-192): every `flag`-typed value is coerced with
Python `bool(v)`; a bool stays itself, a string becomes its truthiness
(non-empty). Non-flag values are untouched. -/
def boolPass (schema : List (String × ArgKind)) (args : List (String × ArgVal)) :
    List (String × ArgVal) :=
  args.map (fun p =>
    match kindOf schema p.1 with
    | ArgKind.flag =>
      match p.2 with
      | ArgVal.b b => (p.1, ArgVal.b b)
      | ArgVal.s v => (p.1, ArgVal.b (v ≠ ""))
    | ArgKind.value => p)

/-- Error raised by the extra-argument validation. -/
inductive ArgsError where
  | unknownArgs : List String → ArgsError
  deriving Repr, DecidableEq

/-- Extra-argument handling of lines 166-192: fatal `exit(1)` when any
specified name is not declared by the translator; then the two flag passes.
The second component of a successful result collects the diagnostics printed
without aborting. -/
def processExtraArgs (schema : List (String × ArgKind))
    (args : List (String × String)) :
    Except ArgsError (List (String × ArgVal) × List String) :=
  let unknown := (args.map Prod.fst).filter (fun n => (schema.lookup n).isNone)
  if unknown.isEmpty then
    Except.ok (let p := flagPass schema args; (boolPass schema p.1, p.2))
  else
    Except.error (ArgsError.unknownArgs unknown)

/-! ## Translator identity and `translatorParams` (lines 265-274) -/

/-- Identity of the selected translator. -/
structure Translator where
  subsystem : String
  ttype : String
  name : String
  deriving Repr, DecidableEq

/-- Fully-qualified translator identity `subsystem.type.name`. -/
def translatorId (t : Translator) : String :=
  t.subsystem ++ "." ++ t.ttype ++ "." ++ t.name

/-- Rendering of an argument value inside an f-string: Python shows bools as
`True` / `False`. -/
def renderArgVal : ArgVal → String
  | ArgVal.b true => "True"
  | ArgVal.b false => "False"
  | ArgVal.s s => s

/-- Reconstructed invocation string of lines 267-274: a `" ".join` of
`--translator <id>`, `--combined` when the flag was set, and one
`--arg <n>=<v>` element per entry of `specified_extra_args`, iterated in the
dictionary's insertion order. -/
def mkTranslatorParams (t : Translator) (combined : Bool)
    (args : List (String × ArgVal)) : String :=
  String.intercalate " "
    (["--translator", translatorId t]
      ++ (if combined then ["--combined"] else [])
      ++ args.map (fun p => "--arg " ++ p.1 ++ "=" ++ renderArgVal p.2))

/-- Update of an insertion-ordered dictionary: an existing key keeps its
position, a new key is appended at the end (Python dict assignment). -/
def updAssoc {α : Type} (m : List (String × α)) (k : String) (v : α) :
    List (String × α) :=
  match m with
  | [] => [(k, v)]
  | (k0, v0) :: rest =>
    if k0 = k then (k, v) :: rest else (k0, v0) :: updAssoc rest k v

/-- Source & metadata merger (lines 265-289): stamps `translatedBy` and
`translatorParams` and overwrites `sources[main][ver]` with the resolved main
source spec (or the `unknown` sentinel when none was resolved). -/
def mergerStage (lock : DreamLock) (t : Translator) (combined : Bool)
    (args : List (String × ArgVal)) (sourceSpec : SourceSpec) : DreamLock :=
  let mainSource := if sourceSpec.isEmpty then [("type", "unknown")] else sourceSpec
  let n := lock.generic.mainPackageName
  let v := lock.generic.mainPackageVersion
  { lock with
    generic :=
      { lock.generic with
        translatedBy := translatorId t
        translatorParams := mkTranslatorParams t combined args }
    sources :=
      match lock.sources.lookup n with
      | none => lock.sources ++ [(n, [(v, mainSource)])]
      | some vm => updAssoc lock.sources n (updAssoc vm v mainSource) }

/-! ## Dependency-map cleanup (lines 293-298) -/

/-- Cleanup loop of lines 295-298: `del depGraph[pname]` for every name whose
value (the version-to-deps dictionary) is empty. Note the loop tests the
name-level value, not the per-version dependency lists. -/
def cleanupDeps (dg : DepGraph) : DepGraph :=
  dg.filter (fun p => !p.2.isEmpty)

/-- Nested lookup `m[n][v]` in a name -> version -> value table. -/
def lookup2 {α : Type} (m : List (String × List (String × α))) (n v : String) :
    Option α :=
  match m.lookup n with
  | none => none
  | some vm => vm.lookup v

/-- Cleanup portion of the guarded stage: rewrites
`lock['_generic']['dependencies']` in place when the key is present. -/
def cleanupStage (lock : DreamLock) : DreamLock :=
  match lock.generic.dependencies with
  | none => lock
  | some dg =>
    { lock with generic := { lock.generic with dependencies := some (cleanupDeps dg) } }

/-! ## Cycle resolver (lines 300-335)

The live graph `G = nx.DiGraph(sorted(list(edges)))` is modelled by its edge
list in insertion order (initially sorted; `G.remove_edge` keeps the relative
order of the remaining edges, like `List.erase`). `nx.find_cycle(G, key)` is
an external library routine; it is modelled by its documented behaviour: a
depth-first search over the adjacency lists (in insertion order) that either
returns a cycle reachable from `key` — reported as the ordered edge sequence
of the cycle, starting at the node where the search closed it — or raises
`NetworkXNoCycle`. -/

/-- Strict lexicographic order on character lists by code point, the order
Python uses to compare strings. -/
def charsLT : List Char → List Char → Bool
  | [], [] => false
  | [], _ :: _ => true
  | _ :: _, [] => false
  | a :: as, b :: bs => if a < b then true else if b < a then false else charsLT as bs

/-- Strict code-point order on strings. -/
def strLT (a b : String) : Bool :=
  charsLT a.data b.data

/-- Strict lexicographic order on nodes, matching Python tuple comparison of
pairs of strings (code-point order). -/
def nodeLT (a b : GNode) : Bool :=
  strLT a.1 b.1 || (a.1 == b.1 && strLT a.2 b.2)

/-- Lexicographic order on nodes (strict-or-equal). -/
def nodeLE (a b : GNode) : Bool :=
  strLT a.1 b.1 || (a.1 == b.1 && (strLT a.2 b.2 || a.2 == b.2))

/-- Lexicographic order on edges (nested tuple comparison). -/
def edgeLE (a b : GEdge) : Bool :=
  nodeLT a.1 b.1 || (a.1 == b.1 && nodeLE a.2 b.2)

/-- Insertion of an edge into a sorted edge list. -/
def insertSorted (e : GEdge) : List GEdge → List GEdge
  | [] => [e]
  | x :: xs => if edgeLE e x then e :: x :: xs else x :: insertSorted e xs

/-- Sorting of the edge list by the lexicographic order (a stable sort; on
the duplicate-free edge set the result is the unique sorted arrangement that
Python's `sorted` produces). -/
def sortEdges (l : List GEdge) : List GEdge :=
  l.foldr insertSorted []

/-- Declared edges of lines 301-305: one `((pname, version), dep)` pair per
entry of every dependency list. -/
def edgesOf (dg : DepGraph) : List GEdge :=
  dg.flatMap (fun nv =>
    nv.2.flatMap (fun vd => vd.2.map (fun dep => ((nv.1, vd.1), dep))))

/-- Edge list the graph is built from (line 306): the Python `set` drops
duplicate declared edges and `sorted` puts the rest in lexicographic order. -/
def sortedEdges (dg : DepGraph) : List GEdge :=
  sortEdges (edgesOf dg).dedup

/-- Successor list of `u` in the live graph, in adjacency insertion order. -/
def successors (E : List GEdge) (u : GNode) : List GNode :=
  (E.filter (fun e => decide (e.1 = u))).map Prod.snd

/-- Nodes of the live graph (every endpoint of an edge, first occurrence
kept). -/
def nodesOf (E : List GEdge) : List GNode :=
  (E.map Prod.fst ++ E.map Prod.snd).dedup

mutual

/-- Depth-first visit of node `u` during the cycle search: `A` holds the
nodes not yet visited, `path` the active DFS stack (most recent first).
Returns either the node sequence of a found cycle (starting at the node the
cycle re-enters) or the remaining unvisited set, bundled with the length
bound that makes the recursion well-founded. -/
def visit (E : List GEdge) (A : List GNode) (path : List GNode) (u : GNode) :
    Sum (List GNode) {A2 : List GNode // A2.length ≤ A.length} :=
  if h : u ∈ A then
    match visitList E (A.erase u) (u :: path) (successors E u) with
    | Sum.inl c => Sum.inl c
    | Sum.inr ⟨A2, h2⟩ =>
      Sum.inr ⟨A2, le_trans h2 (le_of_lt (by
        rw [List.length_erase_of_mem h]
        exact Nat.sub_lt (List.length_pos_of_mem h) Nat.one_pos))⟩
  else Sum.inr ⟨A, le_refl _⟩
termination_by (A.length, 0)
decreasing_by
  have h1 : (A.erase u).length < A.length := by
    rw [List.length_erase_of_mem h]
    exact Nat.sub_lt (List.length_pos_of_mem h) Nat.one_pos
  exact Prod.Lex.left _ _ h1

/-- Walk through the successor list of the node on top of `path`: a successor
on the active path closes a cycle, an unvisited successor is visited
depth-first, a finished one is skipped. -/
def visitList (E : List GEdge) (A : List GNode) (path : List GNode)
    (succs : List GNode) :
    Sum (List GNode) {A2 : List GNode // A2.length ≤ A.length} :=
  match succs with
  | [] => Sum.inr ⟨A, le_refl _⟩
  | v :: vs =>
    if v ∈ path then
      Sum.inl (v :: (path.takeWhile (fun x => decide (x ≠ v))).reverse)
    else
      match visit E A path v with
      | Sum.inl c => Sum.inl c
      | Sum.inr ⟨A2, h2⟩ =>
        match visitList E A2 path vs with
        | Sum.inl c => Sum.inl c
        | Sum.inr ⟨A3, h3⟩ => Sum.inr ⟨A3, le_trans h3 h2⟩
termination_by (A.length, succs.length + 1)
decreasing_by
  · exact Prod.Lex.right _ (by omega)
  · rcases Nat.lt_or_ge A2.length A.length with hlt | hge
    · exact Prod.Lex.left _ _ hlt
    · have heq : A2.length = A.length := le_antisymm h2 hge
      rw [heq]
      exact Prod.Lex.right _ (by rw [List.length_cons]; omega)

end

/-- Ordered edge sequence of a cycle given as a node list `[v, w, ..., x]`:
`[(v, w), ..., (x, v)]`, the format `nx.find_cycle` reports. -/
def cycleEdges (c : List GNode) : List GEdge :=
  match c with
  | [] => []
  | h :: _ => c.zip (c.drop 1 ++ [h])

/-- Model of `nx.find_cycle(G, key)` (line 314): `some` ordered edge sequence
of a cycle reachable from `key`, or `none` for the `NetworkXNoCycle`
exception. A `key` that is no node of the graph yields `none` (with a tuple
source, `nbunch_iter` silently yields no start node and the search raises
`NetworkXNoCycle`). -/
def find_cycle (E : List GEdge) (s : GNode) : Option (List GEdge) :=
  match visit E (nodesOf E) [] s with
  | Sum.inl c => some (cycleEdges c)
  | Sum.inr _ => none

/-- Inner while-loop of lines 312-321 for one node `key`: repeatedly search a
cycle from `key` in the live graph and remove the last edge of the returned
sequence (`cycle[-1]`), recording it in `removed_edges`, until the search
raises `NetworkXNoCycle`. The membership test is only a termination guard:
the returned sequence is never empty and its edges always lie in the live
graph (proved below), so the `else` branch is unreachable; the `(k, k)`
default of `getLastD` is likewise never consulted. -/
def breakFrom (E : List GEdge) (k : GNode) (acc : List GEdge) :
    List GEdge × List GEdge :=
  match find_cycle E k with
  | none => (E, acc)
  | some ces =>
    let e := ces.getLastD (k, k)
    if h : e ∈ E then breakFrom (E.erase e) k (acc ++ [e])
    else (E, acc)
termination_by E.length
decreasing_by
  rw [List.length_erase_of_mem h]
  exact Nat.sub_lt (List.length_pos_of_mem h) Nat.one_pos

/-- Outer loop of lines 309-321: process the `(name, version)` keys of the
cleaned dependency map in insertion order, threading the live graph and the
`removed_edges` accumulator. -/
def resolveCycles : List GEdge → List GNode → List GEdge → List GEdge × List GEdge
  | E, [], acc => (E, acc)
  | E, k :: ks, acc =>
    let p := breakFrom E k acc
    resolveCycles p.1 ks p.2

/-- Key iteration order of the outer loop (lines 309-311): all
`(pname, version)` pairs of the cleaned dependency map, in insertion order. -/
def keysOf (dg : DepGraph) : List GNode :=
  dg.flatMap (fun nv => nv.2.map (fun vd => (nv.1, vd.1)))

/-- One step of the ledger construction (lines 330-334): append the removed
edge's target under the origin's name and version, creating missing entries
at the end of the respective dictionary. -/
def addCyc (cd : CycDeps) (nf nt : GNode) : CycDeps :=
  match cd.lookup nf.1 with
  | none => cd ++ [(nf.1, [(nf.2, [nt])])]
  | some vm =>
    match vm.lookup nf.2 with
    | none => updAssoc cd nf.1 (vm ++ [(nf.2, [nt])])
    | some l => updAssoc cd nf.1 (updAssoc vm nf.2 (l ++ [nt]))

/-- Ledger of lines 322-334: `lock['cyclicDependencies']` starts as the empty
dictionary and every entry of `removed_edges` is appended in order. -/
def buildCyclic (removed : List GEdge) : CycDeps :=
  removed.foldl (fun cd e => addCyc cd e.1 e.2) []

/-- Dependency-graph cleanup and cycle resolution (lines 293-335), guarded on
the presence of the `dependencies` key in `_generic`: clean the name-level
map in place, build the sorted edge list, run the per-key cycle search, and
store the (possibly empty) removal ledger under `cyclicDependencies`. The
pruned live graph `G` is discarded: the `remove_dependecy` call that would
have written removals back into the dependency map is commented out (line
316), so `lock['_generic']['dependencies']` keeps all declared edges. -/
def processDeps (lock : DreamLock) : DreamLock :=
  match lock.generic.dependencies with
  | none => lock
  | some dg =>
    let dg2 := cleanupDeps dg
    let res := resolveCycles (sortedEdges dg2) (keysOf dg2) []
    { lock with
      generic := { lock.generic with dependencies := some dg2 }
      cyclicDependencies := some (buildCyclic res.2) }

/-! ## Reachability and cycles (specification vocabulary) -/

/-- Reflexive-transitive closure of the edge relation: `v` is reachable from
`u` by following zero or more edges. -/
inductive Reach (E : List GEdge) : GNode → GNode → Prop where
  | refl (u : GNode) : Reach E u u
  | step {u v w : GNode} : (u, v) ∈ E → Reach E v w → Reach E u w

/-- A directed cycle through `v`: at least one edge leaves `v` and leads back
to it. -/
def CycleAt (E : List GEdge) (v : GNode) : Prop :=
  ∃ w, (v, w) ∈ E ∧ Reach E w v

/-- The node list `[v, w, ..., x]` is a directed cycle: consecutive edges all
present, including the closing edge back to `v`. -/
def IsCycle (E : List GEdge) : List GNode → Prop
  | [] => False
  | h :: t => List.Chain (fun a b => (a, b) ∈ E) h (t ++ [h])

/-! ## Combined hash calculation (lines 338-367) -/

/-- Characters of one line: everything before the first newline (a `.` in a
Python regex does not match a newline). -/
def lineOf (cs : List Char) : List Char :=
  cs.takeWhile (fun c => c ≠ '\n')

/-- Longest prefix of a line that ends with an equals sign — the greedy
capture of the group in the pattern — or `none` when the line has none. -/
def lastEqPrefix (line : List Char) : Option (List Char) :=
  let r := line.reverse.dropWhile (fun c => c ≠ '=')
  if r.isEmpty then none else some r.reverse

/-- Models the marker search of line 358, a Python regex search for
`FOD_PATH=` followed by a greedy capture ending at an equals sign: the
leftmost position where the literal marker occurs and is followed, on the
same line, by at least one further equals sign; the captured group extends
greedily to the last equals sign of that line. -/
def extractFodChars : List Char → Option (List Char)
  | [] => none
  | c :: cs =>
    if ("FOD_PATH=".toList).isPrefixOf (c :: cs) then
      match lastEqPrefix (lineOf ((c :: cs).drop 9)) with
      | some g => some g
      | none => extractFodChars cs
    else extractFodChars cs

/-- Marker extraction on the oracle's stderr text. -/
def extractFodHash (stderr : String) : Option String :=
  (extractFodChars stderr.data).map (fun l => String.mk l)

/-- Modelled from the spec: `strip_hashes_from_lock` is imported from `utils`,
which is outside the sources under `src/`; per the spec it strips every
per-source hash field from `sources`, replacing values with an empty
placeholder. -/
def strip_hashes_from_lock (lock : DreamLock) : DreamLock :=
  { lock with
    sources :=
      lock.sources.map (fun nv =>
        (nv.1, nv.2.map (fun vs =>
          (vs.1, vs.2.map (fun kv =>
            if kv.1 = "hash" then (kv.1, "") else kv))))) }

/-- Combined hash calculator (lines 338-367), abstracted over the external
oracle build's diagnostics: strip all per-source hashes, initialize
`sourcesCombinedHash` with the empty string, write this stripped lock to the
output path, then recover the hash from the failure diagnostics; a missing
marker raises the fatal "Could not find FOD hash in FOD log" exception.
Returns the stage result together with the lock written to the output path by
the stage itself (line 345). -/
def combinedHashStage (lock : DreamLock) (stderr : String) :
    Except String DreamLock × DreamLock :=
  let stripped0 := strip_hashes_from_lock lock
  let stripped :=
    { stripped0 with
      generic := { stripped0.generic with sourcesCombinedHash := some "" } }
  match extractFodHash stderr with
  | none => (Except.error "Could not find FOD hash in FOD log", stripped)
  | some h =>
    (Except.ok
      { stripped with
        generic := { stripped.generic with sourcesCombinedHash := some h } },
     stripped)

/-- Combined-mode tail of the pipeline (lines 338-377): on success the final
re-write of line 376 replaces the output file with the finished lock; on the
missing-marker failure the exception propagates and the file written at line
345 — the hash-stripped intermediate — stays at the output path (`none` would
mean the output file is absent, which the code never arranges). -/
def combinedModeRun (lock : DreamLock) (stderr : String) :
    Except String DreamLock × Option DreamLock :=
  match combinedHashStage lock stderr with
  | (Except.error e, written) => (Except.error e, some written)
  | (Except.ok fin, _) => (Except.ok fin, some fin)

/-! ## Concrete fixtures -/

/-- Three-node fixture graph `a@1 → b@1 → c@1 → b@1`: a cycle is reachable
from `a@1` without passing through it. -/
def exG : List GEdge :=
  [(("a", "1"), ("b", "1")), (("b", "1"), ("c", "1")), (("c", "1"), ("b", "1"))]

/-- The cycle the search returns on `exG` when started from `a@1`: the edge
sequence `[(b@1, c@1), (c@1, b@1)]`, closing at `b@1`. -/
def exCes : List GEdge :=
  [(("b", "1"), ("c", "1")), (("c", "1"), ("b", "1"))]

/-- Two-node cyclic fixture dependency map `A@1 → B@1 → A@1`. -/
def exDg : DepGraph := [("A", [("1", [("B", "1")])]), ("B", [("1", [("A", "1")])])]

/-- Fixture lock holding `exDg` as its raw dependency map. -/
def exLock : DreamLock :=
  { generic :=
      { mainPackageName := "A", mainPackageVersion := "1", translatedBy := "",
        translatorParams := "", sourcesCombinedHash := none,
        dependencies := some exDg },
    sources := [], cyclicDependencies := none }

/-- Acyclic fixture dependency map `a@1 → b@1`. -/
def exDgAcyc : DepGraph := [("a", [("1", [("b", "1")])])]

/-- Fixture lock holding the acyclic map `exDgAcyc`. -/
def exLockAcyc : DreamLock :=
  { generic :=
      { mainPackageName := "a", mainPackageVersion := "1", translatedBy := "",
        translatorParams := "", sourcesCombinedHash := none,
        dependencies := some exDgAcyc },
    sources := [], cyclicDependencies := none }

/-- Fixture lock with one hashed source, for the combined-hash stage. -/
def exLockH : DreamLock :=
  { generic :=
      { mainPackageName := "A", mainPackageVersion := "1",
        translatedBy := "", translatorParams := "",
        sourcesCombinedHash := none, dependencies := none },
    sources := [("A", [("1", [("type", "http"), ("hash", "sha256-aaa")])])],
    cyclicDependencies := none }

/-! ## DFS invariants (proof vocabulary) -/

/-- A node is black when it is neither unvisited nor on the active path: the
search has finished it. -/
def Bl (A path : List GNode) (v : GNode) : Prop :=
  v ∉ A ∧ v ∉ path

/-- Invariant carried through the depth-first search: the unvisited set has
no duplicates, path nodes are not unvisited, black nodes only step to black
nodes, and no black node lies on a cycle. -/
structure Inv (E : List GEdge) (A path : List GNode) : Prop where
  nodup : A.Nodup
  disj : ∀ p ∈ path, p ∉ A
  closed : ∀ v, Bl A path v → ∀ w, (v, w) ∈ E → Bl A path w
  safe : ∀ v, Bl A path v → ¬ CycleAt E v

/-- The active path (most recent node first) is connected by edges: each node
was entered by an edge from the node below it. -/
def PChain (E : List GEdge) (path : List GNode) : Prop :=
  path.Chain' (fun a b => (b, a) ∈ E)

/-- Specification of the results of `visit`. -/
def VisitPost (E : List GEdge) (A path : List GNode) (u : GNode) : Prop :=
  (∀ c, visit E A path u = Sum.inl c → IsCycle E c) ∧
  (∀ r : {A2 : List GNode // A2.length ≤ A.length},
      visit E A path u = Sum.inr r →
      Inv E r.1 path ∧ (∀ x ∈ r.1, x ∈ A) ∧ u ∉ r.1)

/-- Preconditions under which `VisitPost` is established. -/
def VisitSpec (E : List GEdge) (A path : List GNode) (u : GNode) : Prop :=
  Inv E A path → u ∉ path → PChain E (u :: path) → VisitPost E A path u

/-- Specification of the results of `visitList` (the path is non-empty, with
top node `hd`). -/
def VisitListPost (E : List GEdge) (A : List GNode) (hd : GNode)
    (rest succs : List GNode) : Prop :=
  (∀ c, visitList E A (hd :: rest) succs = Sum.inl c → IsCycle E c) ∧
  (∀ r : {A2 : List GNode // A2.length ≤ A.length},
      visitList E A (hd :: rest) succs = Sum.inr r →
      Inv E r.1 (hd :: rest) ∧ (∀ x ∈ r.1, x ∈ A) ∧
      ∀ v ∈ succs, v ∉ r.1 ∧ v ∉ hd :: rest)

/-- Preconditions under which `VisitListPost` is established. -/
def VisitListSpec (E : List GEdge) (A : List GNode) (hd : GNode)
    (rest succs : List GNode) : Prop :=
  Inv E A (hd :: rest) → PChain E (hd :: rest) →
  (∀ v ∈ succs, (hd, v) ∈ E) → VisitListPost E A hd rest succs

/-! ## Canonical serializer (lines 369-377)

The final lock is serialized with `json.dumps(lock, indent=2, sort_keys=True)`
and then compacted by three plain-text replacements. The JSON fragment a
dream-lock document inhabits — strings, arrays and string-keyed objects — is
modelled by `Json`; `json.dumps` (with its default `ensure_ascii` escaping)
by `dumpVal`, with the `sort_keys=True` option modelled as the recursive
key-sorting pre-pass `canon`; `json.loads` by a whitespace-insensitive lexer
(`lexToks`, rejecting raw control characters inside string literals exactly
as Python's strict mode does) followed by a recursive-descent token parser
(`parseVal`). Inputs whose `\uXXXX` escapes denote lone surrogates are
rejected by the lexer; Python would accept them, but no serialized document
contains them. -/

/-- JSON values of the fragment the dream-lock document uses. -/
inductive Json where
  | str : String → Json
  | arr : List Json → Json
  | obj : List (String × Json) → Json

/-- Code-point "less or equal" on strings. -/
def strLE (a b : String) : Bool :=
  strLT a b || a == b

/-- Insertion of an entry into a key-sorted entry list (stable, like
Python's sort). -/
def insKey (e : String × Json) : List (String × Json) → List (String × Json)
  | [] => [e]
  | x :: xs => if strLE e.1 x.1 then e :: x :: xs else x :: insKey e xs

/-- Stable sort of object entries by key, the order `sort_keys=True` emits. -/
def sortKeys (m : List (String × Json)) : List (String × Json) :=
  m.foldr insKey []

mutual

/-- Recursive canonicalization: every object's entries in sorted key order
(the document `sort_keys=True` serialization exposes). -/
def canon : Json → Json
  | Json.str s => Json.str s
  | Json.arr l => Json.arr (canonList l)
  | Json.obj m => Json.obj (sortKeys (canonObj m))

/-- Canonicalization of an array's elements. -/
def canonList : List Json → List Json
  | [] => []
  | j :: l => canon j :: canonList l

/-- Canonicalization of an object's entry values. -/
def canonObj : List (String × Json) → List (String × Json)
  | [] => []
  | (k, j) :: m => (k, canon j) :: canonObj m

end

/-- Lowercase hex digit, as Python formats `\uXXXX` escapes. -/
def hexDigit (n : Nat) : Char :=
  if n < 10 then Char.ofNat (48 + n) else Char.ofNat (87 + n)

/-- Four lowercase hex digits of a number below 0x10000. -/
def hex4 (n : Nat) : List Char :=
  [hexDigit (n / 4096 % 16), hexDigit (n / 256 % 16),
   hexDigit (n / 16 % 16), hexDigit (n % 16)]

/-- Unicode escape of one code point: `\uXXXX`, or a surrogate pair for
points beyond the basic plane (Python's `ensure_ascii` behaviour). -/
def uEscape (n : Nat) : List Char :=
  if n < 0x10000 then '\\' :: 'u' :: hex4 n
  else
    ('\\' :: 'u' :: hex4 (0xd800 + (n - 0x10000) / 0x400))
      ++ ('\\' :: 'u' :: hex4 (0xdc00 + (n - 0x10000) % 0x400))

/-- Escape of one character inside a serialized string literal, following
`json.dumps` with its default `ensure_ascii=True`: the two-character escapes
for quote, backslash and the common control characters, `\uXXXX` for other
control characters and for everything outside printable ASCII. -/
def escapeChar (c : Char) : List Char :=
  if c = '"' then ['\\', '"']
  else if c = '\\' then ['\\', '\\']
  else if c = '\n' then ['\\', 'n']
  else if c = '\t' then ['\\', 't']
  else if c = '\r' then ['\\', 'r']
  else if c = '\x08' then ['\\', 'b']
  else if c = '\x0c' then ['\\', 'f']
  else if c.toNat < 0x20 ∨ 0x7e < c.toNat then uEscape c.toNat
  else [c]

/-- Serialized string literal, quotes included. -/
def dumpStr (s : String) : List Char :=
  '"' :: s.data.flatMap escapeChar ++ ['"']

/-- Indentation: `n` spaces. -/
def sp (n : Nat) : List Char :=
  List.replicate n ' '

mutual

/-- Serialization of a value whose closing bracket sits at indentation
`ind`, following `json.dumps(..., indent=2)`: containers open the line, each
item sits on its own line at `ind + 2`, separated by a comma-newline, and
empty containers are `[]` / `{}`. -/
def dumpVal (ind : Nat) : Json → List Char
  | Json.str s => dumpStr s
  | Json.arr l =>
    match l with
    | [] => ['[', ']']
    | j :: l2 =>
      ['[', '\n'] ++ dumpArrItems ind j l2 ++ '\n' :: sp ind ++ [']']
  | Json.obj m =>
    match m with
    | [] => ['{', '}']
    | e :: m2 =>
      ['{', '\n'] ++ dumpObjItems ind e m2 ++ '\n' :: sp ind ++ ['}']
termination_by j => sizeOf j
decreasing_by
  · simp
    omega
  · simp
    omega

/-- Serialized array items, comma-newline separated. -/
def dumpArrItems (ind : Nat) (j : Json) (l : List Json) : List Char :=
  sp (ind + 2) ++ dumpVal (ind + 2) j ++
    (match l with
     | [] => []
     | j2 :: l2 => [',', '\n'] ++ dumpArrItems ind j2 l2)
termination_by sizeOf j + sizeOf l
decreasing_by
  · have h0 : 0 < sizeOf l := by cases l <;> simp
    omega
  · simp
    omega

/-- Serialized object items `"key": value`, comma-newline separated. -/
def dumpObjItems (ind : Nat) (e : String × Json) (m : List (String × Json)) :
    List Char :=
  sp (ind + 2) ++ dumpStr e.1 ++ [':', ' '] ++ dumpVal (ind + 2) e.2 ++
    (match m with
     | [] => []
     | e2 :: m2 => [',', '\n'] ++ dumpObjItems ind e2 m2)
termination_by sizeOf e + sizeOf m
decreasing_by
  · cases e
    simp
    omega
  · simp
    omega

end

/-- Full serialization of line 371: `json.dumps(lock, indent=2,
sort_keys=True)`, the key sorting performed by the `canon` pre-pass. -/
def serializeJson (j : Json) : List Char :=
  dumpVal 0 (canon j)

/-- Replacement scan with a non-empty pattern `p0 :: pr`: left-to-right,
non-overlapping, resuming after each replacement — Python `str.replace`. -/
def replaceAllAux (p0 : Char) (pr repl : List Char) : List Char → List Char
  | [] => []
  | c :: cs =>
    if (p0 :: pr).isPrefixOf (c :: cs) then
      repl ++ replaceAllAux p0 pr repl (cs.drop pr.length)
    else c :: replaceAllAux p0 pr repl cs
termination_by s => s.length
decreasing_by
  · simp only [List.length_drop, List.length_cons]
    omega
  · simp only [List.length_cons]
    omega

/-- Python `str.replace` on character lists (an empty pattern is never used
by the code). -/
def replaceAll (pat repl s : List Char) : List Char :=
  match pat with
  | [] => s
  | p0 :: pr => replaceAllAux p0 pr repl s

/-- The three compaction replacements of lines 372-375, applied in the
code's order. -/
def compact3 (s : List Char) : List Char :=
  replaceAll (',' :: '\n' :: sp 10) [',', ' ']
    (replaceAll ('"' :: '\n' :: (sp 8 ++ [']'])) ['"', ' ', ']']
      (replaceAll ('[' :: '\n' :: sp 10) ['[', ' '] s))

/-- Emitted text of the canonical serializer: sorted-keys `json.dumps`
followed by the three compactions. -/
def emitLock (j : Json) : List Char :=
  compact3 (serializeJson j)

/-! ### Lexer (model of the tokenization inside `json.loads`) -/

/-- JSON inter-token whitespace. -/
def isWS (c : Char) : Bool :=
  c = ' ' || c = '\n' || c = '\t' || c = '\r'

/-- Tokens of the JSON fragment in use. -/
inductive Tok where
  | lbrace : Tok
  | rbrace : Tok
  | lbrack : Tok
  | rbrack : Tok
  | colon : Tok
  | comma : Tok
  | tstr : String → Tok
  deriving DecidableEq

/-- Decoded character of a two-character escape `\\e` (Python's simple
escapes). -/
def escDecode (e : Char) : Option Char :=
  if e = '"' then some '"'
  else if e = '\\' then some '\\'
  else if e = '/' then some '/'
  else if e = 'b' then some '\x08'
  else if e = 'f' then some '\x0c'
  else if e = 'n' then some '\n'
  else if e = 'r' then some '\r'
  else if e = 't' then some '\t'
  else none

/-- Numeric value of one hex digit (Python accepts both cases). -/
def hexVal (c : Char) : Option Nat :=
  if '0' ≤ c ∧ c ≤ '9' then some (c.toNat - 48)
  else if 'a' ≤ c ∧ c ≤ 'f' then some (c.toNat - 87)
  else if 'A' ≤ c ∧ c ≤ 'F' then some (c.toNat - 55)
  else none

/-- Four hex digits after `\\u`: their value and the rest of the input,
with the consumed length recorded. -/
def readU : (cs : List Char) →
    Option (Nat × {r : List Char // r.length + 4 = cs.length})
  | h1 :: h2 :: h3 :: h4 :: cs3 =>
    match hexVal h1, hexVal h2, hexVal h3, hexVal h4 with
    | some a, some b, some c, some d =>
      some (a * 4096 + b * 256 + c * 16 + d, ⟨cs3, by simp⟩)
    | _, _, _, _ => none
  | _ => none

mutual

/-- Scan of a string literal's remainder (after the opening quote): decodes
escapes, combines surrogate pairs, rejects raw control characters (strict
mode) and unterminated or malformed input. Returns the decoded characters
and, bundled with a length bound, the input following the closing quote. -/
def lexStrBody : (cs : List Char) →
    Option (List Char × {r : List Char // r.length ≤ cs.length})
  | [] => none
  | c :: cs =>
    if c = '"' then some ([], ⟨cs, Nat.le_succ _⟩)
    else if c = '\\' then
      match lexEsc cs with
      | none => none
      | some (content, ⟨r, hr⟩) =>
        some (content, ⟨r, le_trans hr (Nat.le_succ _)⟩)
    else if c.toNat < 0x20 then none
    else
      match lexStrBody cs with
      | none => none
      | some (content, ⟨r, hr⟩) =>
        some (c :: content, ⟨r, le_trans hr (Nat.le_succ _)⟩)
termination_by cs => cs.length

/-- Scan after a backslash: a `\uXXXX` escape or a simple two-character
escape. -/
def lexEsc : (cs : List Char) →
    Option (List Char × {r : List Char // r.length ≤ cs.length})
  | [] => none
  | e :: cs2 =>
    if e = 'u' then
      match lexU cs2 with
      | none => none
      | some (content, ⟨r, hr⟩) =>
        some (content, ⟨r, le_trans hr (Nat.le_succ _)⟩)
    else
      match escDecode e with
      | none => none
      | some c2 =>
        match lexStrBody cs2 with
        | none => none
        | some (content, ⟨r, hr⟩) =>
          some (c2 :: content, ⟨r, le_trans hr (Nat.le_succ _)⟩)
termination_by cs => cs.length

/-- Scan after `\u`: four hex digits giving either a non-surrogate code
point or the high half of a surrogate pair, whose low half must follow as a
second `\uXXXX` escape (lone surrogates are rejected). -/
def lexU (cs : List Char) :
    Option (List Char × {r : List Char // r.length ≤ cs.length}) :=
  match readU cs with
  | none => none
  | some (n, r1s) =>
    if n < 0xd800 ∨ 0xe000 ≤ n then
      match lexStrBody r1s.val with
      | none => none
      | some (content, ⟨r, hr⟩) =>
        some (Char.ofNat n :: content, ⟨r, by
          have h1 := r1s.2
          omega⟩)
    else if n < 0xdc00 then
      match hr1 : r1s.val with
      | c3 :: c4 :: r2 =>
        if c3 = '\\' ∧ c4 = 'u' then
          match readU r2 with
          | none => none
          | some (m2, r3s) =>
            if 0xdc00 ≤ m2 ∧ m2 < 0xe000 then
              match lexStrBody r3s.val with
              | none => none
              | some (content, ⟨r, hr⟩) =>
                some (Char.ofNat
                    (0x10000 + (n - 0xd800) * 0x400 + (m2 - 0xdc00))
                      :: content,
                  ⟨r, by
                    have h1 := r1s.2
                    have h3 := r3s.2
                    have hl := congrArg List.length hr1
                    simp only [List.length_cons] at hl
                    omega⟩)
            else none
        else none
      | _ => none
    else none
termination_by cs.length
decreasing_by
  · have h1 := r1s.2
    omega
  · have h1 := r1s.2
    have h3 := r3s.2
    have hl := congrArg List.length hr1
    simp only [List.length_cons] at hl
    omega

end

/-- Tokenization: skip whitespace, lex punctuation and string literals,
reject anything else. -/
def lexToks : List Char → Option (List Tok)
  | [] => some []
  | c :: cs =>
    if isWS c then lexToks cs
    else if c = '{' then
      match lexToks cs with
      | none => none
      | some ts => some (Tok.lbrace :: ts)
    else if c = '}' then
      match lexToks cs with
      | none => none
      | some ts => some (Tok.rbrace :: ts)
    else if c = '[' then
      match lexToks cs with
      | none => none
      | some ts => some (Tok.lbrack :: ts)
    else if c = ']' then
      match lexToks cs with
      | none => none
      | some ts => some (Tok.rbrack :: ts)
    else if c = ':' then
      match lexToks cs with
      | none => none
      | some ts => some (Tok.colon :: ts)
    else if c = ',' then
      match lexToks cs with
      | none => none
      | some ts => some (Tok.comma :: ts)
    else if c = '"' then
      match lexStrBody cs with
      | none => none
      | some (content, ⟨r, hr⟩) =>
        match lexToks r with
        | none => none
        | some ts => some (Tok.tstr (String.mk content) :: ts)
    else none
termination_by s => s.length
decreasing_by
  all_goals simp only [List.length_cons]
  all_goals omega

/-! ### Token parser (model of the construction inside `json.loads`) -/

mutual

/-- Parse one value from the token stream; the remainder is strictly shorter
than the input. -/
def parseVal : (ts : List Tok) →
    Option (Json × {r : List Tok // r.length < ts.length})
  | [] => none
  | Tok.tstr s :: ts =>
    some (Json.str s, ⟨ts, by simp⟩)
  | Tok.lbrack :: ts =>
    if ts.head? = some Tok.rbrack then
      some (Json.arr [], ⟨ts.tail, by
        rw [List.length_tail]
        simp only [List.length_cons]
        omega⟩)
    else
      match parseArrItems ts with
      | none => none
      | some (l, ⟨r, hr⟩) =>
        some (Json.arr l, ⟨r, by
          simp only [List.length_cons]
          omega⟩)
  | Tok.lbrace :: ts =>
    if ts.head? = some Tok.rbrace then
      some (Json.obj [], ⟨ts.tail, by
        rw [List.length_tail]
        simp only [List.length_cons]
        omega⟩)
    else
      match parseObjItems ts with
      | none => none
      | some (m, ⟨r, hr⟩) =>
        some (Json.obj m, ⟨r, by
          simp only [List.length_cons]
          omega⟩)
  | _ => none
termination_by ts => (ts.length, 0)
decreasing_by
  · exact Prod.Lex.left _ _ (by simp only [List.length_cons]; omega)
  · exact Prod.Lex.left _ _ (by simp only [List.length_cons]; omega)

/-- Parse `value (, value)* ]`; consumes at least two tokens. -/
def parseArrItems (ts : List Tok) :
    Option (List Json × {r : List Tok // r.length < ts.length}) :=
  match parseVal ts with
  | none => none
  | some (j, ⟨r1, h1⟩) =>
    match hr1 : r1 with
    | Tok.comma :: r2 =>
      (match parseArrItems r2 with
       | none => none
       | some (l, ⟨r, hr⟩) =>
         some (j :: l, ⟨r, by
           simp only [List.length_cons] at h1
           omega⟩))
    | Tok.rbrack :: r2 =>
      some ([j], ⟨r2, by
        simp only [List.length_cons] at h1
        omega⟩)
    | _ => none
termination_by (ts.length, 1)
decreasing_by
  · exact Prod.Lex.right _ (by omega)
  · exact Prod.Lex.left _ _ (by
      simp only [List.length_cons] at h1
      omega)

/-- Parse `"key": value (, "key": value)* }`; consumes at least four
tokens. -/
def parseObjItems : (ts : List Tok) →
    Option (List (String × Json) × {r : List Tok // r.length < ts.length})
  | Tok.tstr k :: Tok.colon :: ts2 =>
    (match parseVal ts2 with
     | none => none
     | some (j, ⟨r1, h1⟩) =>
       match hr1 : r1 with
       | Tok.comma :: r2 =>
         (match parseObjItems r2 with
          | none => none
          | some (m, ⟨r, hr⟩) =>
            some ((k, j) :: m, ⟨r, by
              simp only [List.length_cons] at h1 ⊢
              omega⟩))
       | Tok.rbrace :: r2 =>
         some ([(k, j)], ⟨r2, by
           simp only [List.length_cons] at h1 ⊢
           omega⟩)
       | _ => none)
  | _ => none
termination_by ts => (ts.length, 1)
decreasing_by
  · exact Prod.Lex.left _ _ (by simp only [List.length_cons]; omega)
  · exact Prod.Lex.left _ _ (by
      simp only [List.length_cons] at h1 ⊢
      omega)

end

/-- Model of `json.loads` on the fragment in use: tokenize, parse one value,
require the input to be fully consumed. -/
def parseJson (cs : List Char) : Option Json :=
  match lexToks cs with
  | none => none
  | some ts =>
    match parseVal ts with
    | none => none
    | some (j, ⟨[], _⟩) => some j
    | some (_, ⟨_ :: _, _⟩) => none

/-! ### Expected token stream of a serialized document -/

mutual

/-- Token stream of one serialized value. -/
def toksVal : Json → List Tok
  | Json.str s => [Tok.tstr s]
  | Json.arr l =>
    match l with
    | [] => [Tok.lbrack, Tok.rbrack]
    | j :: l2 => Tok.lbrack :: (toksArr j l2 ++ [Tok.rbrack])
  | Json.obj m =>
    match m with
    | [] => [Tok.lbrace, Tok.rbrace]
    | e :: m2 => Tok.lbrace :: (toksObj e m2 ++ [Tok.rbrace])
termination_by j => sizeOf j
decreasing_by
  · simp
    omega
  · simp
    omega

/-- Token stream of non-empty array items. -/
def toksArr (j : Json) (l : List Json) : List Tok :=
  toksVal j ++
    (match l with
     | [] => []
     | j2 :: l2 => Tok.comma :: toksArr j2 l2)
termination_by sizeOf j + sizeOf l
decreasing_by
  · have : 0 < sizeOf l := by cases l <;> simp <;> omega
    omega
  · simp
    omega

/-- Token stream of non-empty object items. -/
def toksObj (e : String × Json) (m : List (String × Json)) : List Tok :=
  Tok.tstr e.1 :: Tok.colon :: toksVal e.2 ++
    (match m with
     | [] => []
     | e2 :: m2 => Tok.comma :: toksObj e2 m2)
termination_by sizeOf e + sizeOf m
decreasing_by
  · cases e
    simp
    omega
  · simp
    omega

end

/-- JSON image of the final lock dictionary: the `_generic` section (with
its optional `sourcesCombinedHash` and `dependencies` keys), `sources`, and
the optional `cyclicDependencies` ledger; nodes are two-string arrays as in
the serialized document. -/
def nodeToJson (n : GNode) : Json :=
  Json.arr [Json.str n.1, Json.str n.2]

/-- JSON image of a name -> version -> node-list table. -/
def nestedToJson (m : List (String × List (String × List GNode))) : Json :=
  Json.obj (m.map (fun nv =>
    (nv.1, Json.obj (nv.2.map (fun vd =>
      (vd.1, Json.arr (vd.2.map nodeToJson)))))))

/-- JSON image of the sources table. -/
def sourcesToJson (s : Sources) : Json :=
  Json.obj (s.map (fun nv =>
    (nv.1, Json.obj (nv.2.map (fun vd =>
      (vd.1, Json.obj (vd.2.map (fun kv => (kv.1, Json.str kv.2)))))))))

/-- JSON image of the whole dream-lock document. -/
def lockToJson (lock : DreamLock) : Json :=
  Json.obj
    ([("_generic", Json.obj
        ([("mainPackageName", Json.str lock.generic.mainPackageName),
          ("mainPackageVersion", Json.str lock.generic.mainPackageVersion),
          ("translatedBy", Json.str lock.generic.translatedBy),
          ("translatorParams", Json.str lock.generic.translatorParams)]
          ++ (match lock.generic.sourcesCombinedHash with
              | none => []
              | some h => [("sourcesCombinedHash", Json.str h)])
          ++ (match lock.generic.dependencies with
              | none => []
              | some dg => [("dependencies", nestedToJson dg)])))]
      ++ [("sources", sourcesToJson lock.sources)]
      ++ (match lock.cyclicDependencies with
          | none => []
          | some cd => [("cyclicDependencies", nestedToJson cd)]))

/-- Relation between the decoded content of a string literal and the raw
characters standing between its quotes, mirroring exactly the forms
`lexStrBody` accepts: plain non-control characters other than quote and
backslash, two-character escapes, `\uXXXX` escapes of non-surrogate code
points, and surrogate pairs. -/
inductive BodyChars : List Char → List Char → Prop where
  | nil : BodyChars [] []
  | plain : ∀ {c : Char} {content raw : List Char}, c ≠ '"' → c ≠ '\\' →
      0x20 ≤ c.toNat → BodyChars content raw →
      BodyChars (c :: content) (c :: raw)
  | esc : ∀ {e c : Char} {content raw : List Char}, e ≠ 'u' →
      escDecode e = some c → BodyChars content raw →
      BodyChars (c :: content) ('\\' :: e :: raw)
  | uesc : ∀ {content raw : List Char} (h1 h2 h3 h4 : Char)
      (a b c d : Nat), hexVal h1 = some a → hexVal h2 = some b →
      hexVal h3 = some c → hexVal h4 = some d →
      (a * 4096 + b * 256 + c * 16 + d < 0xd800 ∨
        0xe000 ≤ a * 4096 + b * 256 + c * 16 + d) →
      BodyChars content raw →
      BodyChars (Char.ofNat (a * 4096 + b * 256 + c * 16 + d) :: content)
        ('\\' :: 'u' :: h1 :: h2 :: h3 :: h4 :: raw)
  | upair : ∀ {content raw : List Char} (h1 h2 h3 h4 g1 g2 g3 g4 : Char)
      (a b c d a2 b2 c2 d2 : Nat), hexVal h1 = some a → hexVal h2 = some b →
      hexVal h3 = some c → hexVal h4 = some d →
      hexVal g1 = some a2 → hexVal g2 = some b2 →
      hexVal g3 = some c2 → hexVal g4 = some d2 →
      ¬ (a * 4096 + b * 256 + c * 16 + d < 0xd800 ∨
          0xe000 ≤ a * 4096 + b * 256 + c * 16 + d) →
      a * 4096 + b * 256 + c * 16 + d < 0xdc00 →
      (0xdc00 ≤ a2 * 4096 + b2 * 256 + c2 * 16 + d2 ∧
        a2 * 4096 + b2 * 256 + c2 * 16 + d2 < 0xe000) →
      BodyChars content raw →
      BodyChars
        (Char.ofNat (0x10000 +
            (a * 4096 + b * 256 + c * 16 + d - 0xd800) * 0x400 +
            (a2 * 4096 + b2 * 256 + c2 * 16 + d2 - 0xdc00)) :: content)
        ('\\' :: 'u' :: h1 :: h2 :: h3 :: h4 ::
          '\\' :: 'u' :: g1 :: g2 :: g3 :: g4 :: raw)

/-- The token a single punctuation character lexes to. -/
def tokOf (c : Char) : Option Tok :=
  if c = '{' then some Tok.lbrace
  else if c = '}' then some Tok.rbrace
  else if c = '[' then some Tok.lbrack
  else if c = ']' then some Tok.rbrack
  else if c = ':' then some Tok.colon
  else if c = ',' then some Tok.comma
  else none

/-! ### Structural identity up to object key order -/

mutual

/-- Structural identity of two documents ignoring the order of object
entries: equal strings, elementwise-equivalent arrays, and objects whose
entry lists agree up to a permutation, with keys equal and values
equivalent. -/
inductive JEquiv : Json → Json → Prop where
  | str : ∀ s, JEquiv (Json.str s) (Json.str s)
  | arr : ∀ {l1 l2 : List Json}, JEquivList l1 l2 →
      JEquiv (Json.arr l1) (Json.arr l2)
  | obj : ∀ {m1 m2 m3 : List (String × Json)}, List.Perm m1 m2 →
      JEquivObj m2 m3 → JEquiv (Json.obj m1) (Json.obj m3)

/-- Elementwise structural identity of array element lists. -/
inductive JEquivList : List Json → List Json → Prop where
  | nil : JEquivList [] []
  | cons : ∀ {j1 j2 : Json} {l1 l2 : List Json}, JEquiv j1 j2 →
      JEquivList l1 l2 → JEquivList (j1 :: l1) (j2 :: l2)

/-- Pointwise structural identity of object entry lists: equal keys,
equivalent values. -/
inductive JEquivObj :
    List (String × Json) → List (String × Json) → Prop where
  | nil : JEquivObj [] []
  | cons : ∀ (k : String) {j1 j2 : Json} {m1 m2 : List (String × Json)},
      JEquiv j1 j2 → JEquivObj m1 m2 →
      JEquivObj ((k, j1) :: m1) ((k, j2) :: m2)

end

/-! # Theorems -/

/-! ## Basic graph lemmas -/

theorem successors_mem {E : List GEdge} {u v : GNode} :
    v ∈ successors E u ↔ (u, v) ∈ E := by
  constructor
  · intro hv
    rcases List.mem_map.mp hv with ⟨e, he, rfl⟩
    rcases List.mem_filter.mp he with ⟨h2, h1d⟩
    have h1 : e.1 = u := of_decide_eq_true h1d
    cases e
    simp only [← h1]
    exact h2
  · intro hv
    exact List.mem_map.mpr ⟨(u, v), List.mem_filter.mpr ⟨hv, by simp⟩, rfl⟩

theorem reach_mono {E1 E2 : List GEdge} (hsub : ∀ e ∈ E1, e ∈ E2)
    {u v : GNode} (h : Reach E1 u v) : Reach E2 u v := by
  induction h with
  | refl u => exact Reach.refl u
  | step he _ ih => exact Reach.step (hsub _ he) ih

theorem cycleAt_mono {E1 E2 : List GEdge} (hsub : ∀ e ∈ E1, e ∈ E2)
    {v : GNode} (h : CycleAt E1 v) : CycleAt E2 v := by
  rcases h with ⟨w, hw, hr⟩
  exact ⟨w, hsub _ hw, reach_mono hsub hr⟩

theorem bl_reach {E : List GEdge} {A path : List GNode}
    (hclosed : ∀ v, Bl A path v → ∀ w, (v, w) ∈ E → Bl A path w)
    {v x : GNode} (hr : Reach E v x) (hv : Bl A path v) : Bl A path x := by
  induction hr with
  | refl u => exact hv
  | step he _ ih => exact ih (hclosed _ hv _ he)

theorem reach_of_chain {E : List GEdge} :
    ∀ (l : List GNode) (x : GNode), List.Chain (fun a b => (a, b) ∈ E) x l →
      Reach E x (l.getLastD x)
  | [], x, _ => Reach.refl x
  | y :: ys, x, h => by
    rcases List.chain_cons.mp h with ⟨hxy, hch⟩
    have hr : Reach E y (ys.getLastD y) := reach_of_chain ys y hch
    rw [List.getLastD_cons]
    exact Reach.step hxy hr

theorem isCycle_cycleAt {E : List GEdge} :
    ∀ {c : List GNode}, IsCycle E c → ∃ v ∈ c, CycleAt E v := by
  intro c h
  match c with
  | [] => exact absurd h (by simp [IsCycle])
  | v :: t =>
    have hch : List.Chain (fun a b => (a, b) ∈ E) v (t ++ [v]) := h
    match ht : t ++ [v] with
    | [] => exact absurd ht (by simp)
    | a :: l =>
      rw [ht] at hch
      rcases List.chain_cons.mp hch with ⟨hva, hch2⟩
      have hr : Reach E a (l.getLastD a) := reach_of_chain l a hch2
      have hlast : l.getLastD a = v := by
        have : (a :: l).getLastD v = v := by
          rw [← ht, List.getLastD_concat]
        rwa [List.getLastD_cons] at this
      exact ⟨v, List.mem_cons_self v t, ⟨a, hva, hlast ▸ hr⟩⟩

theorem chain_zip_mem {E : List GEdge} (h0 : GNode) :
    ∀ (t : List GNode) (h : GNode),
      List.Chain (fun a b => (a, b) ∈ E) h (t ++ [h0]) →
      ∀ p ∈ (h :: t).zip (t ++ [h0]), p ∈ E
  | [], h, hch, p, hp => by
    rcases List.chain_cons.mp hch with ⟨hh, _⟩
    simp only [List.nil_append, List.zip_cons_cons, List.zip_nil_right] at hp
    rcases List.mem_singleton.mp hp with rfl
    exact hh
  | y :: ys, h, hch, p, hp => by
    rcases List.chain_cons.mp hch with ⟨hh, hch2⟩
    simp only [List.cons_append, List.zip_cons_cons] at hp
    rcases List.mem_cons.mp hp with rfl | hp2
    · exact hh
    · exact chain_zip_mem h0 ys y hch2 p hp2

theorem isCycle_edges_mem {E : List GEdge} {c : List GNode} (h : IsCycle E c) :
    ∀ e ∈ cycleEdges c, e ∈ E := by
  match c with
  | [] => exact absurd h (by simp [IsCycle])
  | v :: t =>
    intro e he
    have hch : List.Chain (fun a b => (a, b) ∈ E) v (t ++ [v]) := h
    apply chain_zip_mem v t v hch
    simpa [cycleEdges] using he

theorem takeWhile_decomp {l : List GNode} {v : GNode} (hv : v ∈ l) :
    ∃ t2, l = l.takeWhile (fun x => decide (x ≠ v)) ++ v :: t2 := by
  induction l with
  | nil => cases hv
  | cons a l ih =>
    by_cases ha : a = v
    · subst ha
      refine ⟨l, ?_⟩
      simp [List.takeWhile_cons]
    · have hv2 : v ∈ l := by
        rcases List.mem_cons.mp hv with h1 | h2
        · exact absurd h1.symm ha
        · exact h2
      rcases ih hv2 with ⟨t2, ht⟩
      refine ⟨t2, ?_⟩
      have hsp : (decide (a ≠ v)) = true := by simp [ha]
      rw [List.takeWhile_cons, hsp]
      simp only [if_true, List.cons_append]
      exact congrArg (a :: ·) ht

theorem extract_sound {E : List GEdge} {hd : GNode} {rest : List GNode} {v : GNode}
    (hpc : PChain E (hd :: rest)) (hv : v ∈ hd :: rest) (hedge : (hd, v) ∈ E) :
    IsCycle E (v :: ((hd :: rest).takeWhile (fun x => decide (x ≠ v))).reverse) := by
  set tw := (hd :: rest).takeWhile (fun x => decide (x ≠ v)) with htw
  rcases takeWhile_decomp hv with ⟨t2, hdec⟩
  rw [← htw] at hdec
  have hpre : tw ++ [v] <+: hd :: rest := ⟨t2, by rw [hdec]; simp⟩
  have hch1 : List.Chain' (fun a b : GNode => (b, a) ∈ E) (tw ++ [v]) :=
    hpc.prefix hpre
  have hch2 : List.Chain' (fun a b : GNode => (a, b) ∈ E) (v :: tw.reverse) := by
    have := List.chain'_reverse.mpr hch1
    simpa [Function.flip_def] using this
  show List.Chain (fun a b : GNode => (a, b) ∈ E) v (tw.reverse ++ [v])
  have hgoal : List.Chain' (fun a b : GNode => (a, b) ∈ E)
      ((v :: tw.reverse) ++ [v]) →
      List.Chain (fun a b : GNode => (a, b) ∈ E) v (tw.reverse ++ [v]) := by
    intro hc
    rw [List.cons_append] at hc
    exact hc
  apply hgoal
  rw [List.chain'_append]
  refine ⟨hch2, List.chain'_singleton v, ?_⟩
  intro x hx y hy
  simp only [List.head?_cons, Option.mem_def, Option.some.injEq] at hy
  subst hy
  match htwe : tw with
  | [] =>
    simp only [List.reverse_nil, List.getLast?_singleton, Option.mem_def,
      Option.some.injEq] at hx
    subst hx
    have hhd : hd = v := by
      have := congrArg List.head? hdec
      simpa using this
    exact hhd ▸ hedge
  | w :: tw2 =>
    have hxw : x = w := by
      have hsh : v :: (w :: tw2).reverse = (v :: tw2.reverse) ++ [w] := by simp
      rw [hsh, List.getLast?_concat] at hx
      have := hx
      simp only [Option.mem_def, Option.some.injEq] at this
      exact this.symm
    have hhd : hd = w := by
      have := congrArg List.head? hdec
      simpa using this
    subst hxw
    exact hhd ▸ hedge

theorem bl_shrink {A : List GNode} {u : GNode} (hnd : A.Nodup)
    {path : List GNode} {v : GNode} (hv : Bl (A.erase u) (u :: path) v) :
    Bl A path v := by
  rcases hv with ⟨hvA, hvP⟩
  constructor
  · intro hvin
    exact hvA ((List.Nodup.mem_erase_iff hnd).mpr
      ⟨fun h => hvP (h ▸ List.mem_cons_self u path), hvin⟩)
  · intro hvin
    exact hvP (List.mem_cons_of_mem u hvin)

theorem inv_push {E : List GEdge} {A path : List GNode} {u : GNode}
    (hInv : Inv E A path) (hu : u ∈ A) (hupath : u ∉ path) :
    Inv E (A.erase u) (u :: path) := by
  refine ⟨hInv.nodup.erase u, ?_, ?_, ?_⟩
  · intro p hp
    rcases List.mem_cons.mp hp with rfl | hp2
    · exact fun h => ((List.Nodup.mem_erase_iff hInv.nodup).mp h).1 rfl
    · exact fun h => hInv.disj p hp2 (List.mem_of_mem_erase h)
  · intro v hvbl w hw
    have hbl := hInv.closed v (bl_shrink hInv.nodup hvbl) w hw
    constructor
    · intro hcon
      exact hbl.1 (List.mem_of_mem_erase hcon)
    · intro hcon
      rcases List.mem_cons.mp hcon with rfl | h2
      · exact hbl.1 hu
      · exact hbl.2 h2
  · intro v hvbl
    exact hInv.safe v (bl_shrink hInv.nodup hvbl)

theorem visit_spec_all (E : List GEdge) :
    ∀ N : Nat,
      (∀ A : List GNode, A.length ≤ N → ∀ path u, VisitSpec E A path u) ∧
      (∀ succs : List GNode, ∀ A : List GNode, A.length ≤ N →
        ∀ hd rest, VisitListSpec E A hd rest succs) := by
  intro N
  induction N using Nat.strong_induction_on with
  | _ N IH =>
    have hv : ∀ A : List GNode, A.length ≤ N → ∀ path u, VisitSpec E A path u := by
      intro A hA path u hInv hupath hpch
      by_cases hu : u ∈ A
      · have hlt : (A.erase u).length < N := by
          rw [List.length_erase_of_mem hu]
          have := List.length_pos_of_mem hu
          omega
        have hspecL := (IH (A.erase u).length hlt).2 (successors E u)
          (A.erase u) (le_refl _) u path
        have hInv2 : Inv E (A.erase u) (u :: path) := inv_push hInv hu hupath
        have hsucc : ∀ v ∈ successors E u, (u, v) ∈ E :=
          fun v hv2 => successors_mem.mp hv2
        have post := hspecL hInv2 hpch hsucc
        constructor
        · intro c hc
          simp only [visit] at hc
          rw [dif_pos hu] at hc
          rcases hres : visitList E (A.erase u) (u :: path) (successors E u)
            with c2 | ⟨A2, h2⟩
          · rw [hres] at hc
            simp only [Sum.inl.injEq] at hc
            exact hc ▸ post.1 c2 hres
          · rw [hres] at hc
            simp at hc
        · intro r hr
          simp only [visit] at hr
          rw [dif_pos hu] at hr
          rcases hres : visitList E (A.erase u) (u :: path) (successors E u)
            with c2 | ⟨A2, h2⟩
          · rw [hres] at hr
            simp at hr
          · rw [hres] at hr
            simp only [Sum.inr.injEq] at hr
            have hr1 : r.1 = A2 := by
              rw [← hr]
            rcases post.2 ⟨A2, h2⟩ hres with ⟨I2, sub2, third⟩
            have hsubA : ∀ x ∈ A2, x ∈ A :=
              fun x hx => List.mem_of_mem_erase (sub2 x hx)
            have huA2 : u ∉ A2 := by
              intro hcon
              exact ((List.Nodup.mem_erase_iff hInv.nodup).mp (sub2 u hcon)).1 rfl
            rw [hr1]
            refine ⟨?_, hsubA, huA2⟩
            refine ⟨I2.nodup, ?_, ?_, ?_⟩
            · intro p hp
              exact I2.disj p (List.mem_cons_of_mem u hp)
            · intro v hvbl w hw
              by_cases hvu : v = u
              · subst hvu
                have hwm := third w (successors_mem.mpr hw)
                exact ⟨hwm.1, fun hcon => hwm.2 (List.mem_cons_of_mem v hcon)⟩
              · have hbl2 : Bl A2 (u :: path) v :=
                  ⟨hvbl.1, fun hcon => (List.mem_cons.mp hcon).elim hvu hvbl.2⟩
                have := I2.closed v hbl2 w hw
                exact ⟨this.1, fun hcon => this.2 (List.mem_cons_of_mem u hcon)⟩
            · intro v hvbl
              by_cases hvu : v = u
              · subst hvu
                rintro ⟨w, hw, hreach⟩
                have hwm := third w (successors_mem.mpr hw)
                have hwbl : Bl A2 (v :: path) w := ⟨hwm.1, hwm.2⟩
                have := bl_reach I2.closed hreach hwbl
                exact this.2 (List.mem_cons_self v path)
              · have hbl2 : Bl A2 (u :: path) v :=
                  ⟨hvbl.1, fun hcon => (List.mem_cons.mp hcon).elim hvu hvbl.2⟩
                exact I2.safe v hbl2
      · constructor
        · intro c hc
          simp only [visit] at hc
          rw [dif_neg hu] at hc
          simp at hc
        · intro r hr
          simp only [visit] at hr
          rw [dif_neg hu] at hr
          simp only [Sum.inr.injEq] at hr
          have hr1 : r.1 = A := by rw [← hr]
          rw [hr1]
          exact ⟨hInv, fun x hx => hx, hu⟩
    have hl : ∀ succs : List GNode, ∀ A : List GNode, A.length ≤ N →
        ∀ hd rest, VisitListSpec E A hd rest succs := by
      intro succs
      induction succs with
      | nil =>
        intro A hA hd rest hInv hpch hsucc
        constructor
        · intro c hc
          simp only [visitList] at hc
          simp at hc
        · intro r hr
          simp only [visitList, Sum.inr.injEq] at hr
          have hr1 : r.1 = A := by rw [← hr]
          rw [hr1]
          exact ⟨hInv, fun x hx => hx, fun v hv2 => absurd hv2 (List.not_mem_nil v)⟩
      | cons v vs ihs =>
        intro A hA hd rest hInv hpch hsucc
        by_cases hvp : v ∈ hd :: rest
        · constructor
          · intro c hc
            simp only [visitList] at hc
            rw [if_pos hvp] at hc
            simp only [Sum.inl.injEq] at hc
            rw [← hc]
            exact extract_sound hpch hvp (hsucc v (List.mem_cons_self v vs))
          · intro r hr
            simp only [visitList] at hr
            rw [if_pos hvp] at hr
            simp at hr
        · have postv := hv A hA (hd :: rest) v hInv hvp
            (List.chain'_cons.mpr ⟨hsucc v (List.mem_cons_self v vs), hpch⟩)
          constructor
          · intro c hc
            simp only [visitList] at hc
            rw [if_neg hvp] at hc
            split at hc
            · rename_i c2 hres
              simp only [Sum.inl.injEq] at hc
              exact hc ▸ postv.1 c2 hres
            · rename_i A2 h2 hres
              rcases postv.2 ⟨A2, h2⟩ hres with ⟨I2, sub2, hvA2⟩
              split at hc
              · rename_i c3 hres3
                simp only [Sum.inl.injEq] at hc
                exact hc ▸ ((ihs A2 (le_trans h2 hA) hd rest) I2 hpch
                  (fun w hw => hsucc w (List.mem_cons_of_mem v hw))).1 c3 hres3
              · rename_i A3 h3 hres3
                simp at hc
          · intro r hr
            simp only [visitList] at hr
            rw [if_neg hvp] at hr
            split at hr
            · rename_i c2 hres
              simp at hr
            · rename_i A2 h2 hres
              rcases postv.2 ⟨A2, h2⟩ hres with ⟨I2, sub2, hvA2⟩
              split at hr
              · rename_i c3 hres3
                simp at hr
              · rename_i A3 h3 hres3
                simp only [Sum.inr.injEq] at hr
                have hr1 : r.1 = A3 := by rw [← hr]
                rcases ((ihs A2 (le_trans h2 hA) hd rest) I2 hpch
                  (fun w hw => hsucc w (List.mem_cons_of_mem v hw))).2 ⟨A3, h3⟩ hres3
                  with ⟨I3, sub3, third3⟩
                rw [hr1]
                refine ⟨I3, fun x hx => sub2 x (sub3 x hx), ?_⟩
                intro w hw
                rcases List.mem_cons.mp hw with rfl | hw2
                · exact ⟨fun hcon => hvA2 (sub3 w hcon), hvp⟩
                · exact third3 w hw2
    exact ⟨hv, hl⟩

theorem inv_init (E : List GEdge) : Inv E (nodesOf E) [] := by
  have hsrc : ∀ v w : GNode, (v, w) ∈ E → v ∈ nodesOf E := by
    intro v w hw
    unfold nodesOf
    rw [List.mem_dedup]
    exact List.mem_append.mpr (Or.inl (List.mem_map.mpr ⟨(v, w), hw, rfl⟩))
  refine ⟨List.nodup_dedup _, by simp, ?_, ?_⟩
  · intro v hvbl w hw
    exact absurd (hsrc v w hw) hvbl.1
  · intro v hvbl
    rintro ⟨w, hw, _⟩
    exact absurd (hsrc v w hw) hvbl.1

theorem find_cycle_sound {E : List GEdge} {k : GNode} {ces : List GEdge}
    (h : find_cycle E k = some ces) :
    ∃ c, IsCycle E c ∧ ces = cycleEdges c := by
  unfold find_cycle at h
  rcases hres : visit E (nodesOf E) [] k with c | r
  · rw [hres] at h
    simp only [Option.some.injEq] at h
    have spec := ((visit_spec_all E (nodesOf E).length).1 (nodesOf E)
      (le_refl _) [] k) (inv_init E) (List.not_mem_nil k)
      (List.chain'_singleton k)
    exact ⟨c, spec.1 c hres, h.symm⟩
  · rw [hres] at h
    cases h

theorem find_cycle_none_spec {E : List GEdge} {k : GNode}
    (h : find_cycle E k = none) :
    ∀ v, Reach E k v → ¬ CycleAt E v := by
  unfold find_cycle at h
  rcases hres : visit E (nodesOf E) [] k with c | r
  · rw [hres] at h
    cases h
  · have spec := ((visit_spec_all E (nodesOf E).length).1 (nodesOf E)
      (le_refl _) [] k) (inv_init E) (List.not_mem_nil k)
      (List.chain'_singleton k)
    rcases spec.2 r hres with ⟨I2, _, hk⟩
    intro v hreach hcyc
    have hblk : Bl r.1 [] k := ⟨hk, List.not_mem_nil k⟩
    exact I2.safe v (bl_reach I2.closed hreach hblk) hcyc

theorem getLastD_memb {α : Type} : ∀ (l : List α) (d : α), l ≠ [] →
    l.getLastD d ∈ l
  | [], _, h => absurd rfl h
  | a :: l, d, _ => by
    rw [List.getLastD_cons]
    match l with
    | [] => exact List.mem_singleton.mpr rfl
    | b :: l2 =>
      exact List.mem_cons_of_mem a (getLastD_memb (b :: l2) a (by simp))

theorem zip_concat_last_snd {h0 : GNode} :
    ∀ (t : List GNode) (h : GNode) (d : GEdge),
      (((h :: t).zip (t ++ [h0])).getLastD d).2 = h0
  | [], h, d => rfl
  | y :: ys, h, d => by
    simp only [List.cons_append, List.zip_cons_cons, List.getLastD_cons]
    exact zip_concat_last_snd ys y (h, y)

theorem cycleEdges_ne_nil {E : List GEdge} {c : List GNode} (h : IsCycle E c) :
    cycleEdges c ≠ [] := by
  match c with
  | [] => exact absurd h (by simp [IsCycle])
  | v :: t =>
    unfold cycleEdges
    intro hcon
    have := congrArg List.length hcon
    simp [List.length_zip] at this

theorem find_cycle_some_shape {E : List GEdge} {k : GNode} {ces : List GEdge}
    (h : find_cycle E k = some ces) (d : GEdge) :
    ces ≠ [] ∧ ces.getLastD d ∈ E ∧
      (ces.getLastD d).2 = (ces.headD d).1 := by
  rcases find_cycle_sound h with ⟨c, hcyc, rfl⟩
  match c with
  | [] => exact absurd hcyc (by simp [IsCycle])
  | v :: t =>
    have hne : cycleEdges (v :: t) ≠ [] := cycleEdges_ne_nil hcyc
    refine ⟨hne, isCycle_edges_mem hcyc _ (getLastD_memb _ d hne), ?_⟩
    have hlast : ((cycleEdges (v :: t)).getLastD d).2 = v := by
      unfold cycleEdges
      simp only [List.tail_cons]
      exact zip_concat_last_snd t v d
    have hhead : ((cycleEdges (v :: t)).headD d).1 = v := by
      unfold cycleEdges
      match ht : t ++ [v] with
      | [] => exact absurd ht (by simp)
      | a :: l =>
        have : t = [] ∨ ∃ y ys, t = y :: ys := by
          match t with
          | [] => exact Or.inl rfl
          | y :: ys => exact Or.inr ⟨y, ys, rfl⟩
        rcases this with rfl | ⟨y, ys, rfl⟩
        · rfl
        · rfl
    rw [hlast, hhead]

theorem find_cycle_last_mem {E : List GEdge} {k : GNode} {ces : List GEdge}
    (h : find_cycle E k = some ces) (d : GEdge) : ces.getLastD d ∈ E :=
  (find_cycle_some_shape h d).2.1

theorem breakFrom_none {E : List GEdge} {k : GNode} {acc : List GEdge}
    (h : find_cycle E k = none) : breakFrom E k acc = (E, acc) := by
  rw [breakFrom, h]

theorem breakFrom_step {E : List GEdge} {k : GNode} {acc : List GEdge}
    {ces : List GEdge} (h : find_cycle E k = some ces) :
    breakFrom E k acc =
      breakFrom (E.erase (ces.getLastD (k, k))) k (acc ++ [ces.getLastD (k, k)]) := by
  rw [breakFrom, h]
  simp only [dif_pos (find_cycle_last_mem h (k, k))]

theorem find_cycle_nil (k : GNode) : find_cycle [] k = none := by
  simp [find_cycle, visit, nodesOf]

theorem breakFrom_post : ∀ (n : Nat) (E : List GEdge), E.length ≤ n →
    ∀ (k : GNode) (acc : List GEdge),
      find_cycle (breakFrom E k acc).1 k = none ∧
      (∀ e ∈ (breakFrom E k acc).1, e ∈ E) ∧
      (∃ rem, (breakFrom E k acc).2 = acc ++ rem) := by
  intro n
  induction n with
  | zero =>
    intro E hE k acc
    have hnil : E = [] := List.eq_nil_of_length_eq_zero (by omega)
    subst hnil
    rw [breakFrom_none (find_cycle_nil k)]
    exact ⟨find_cycle_nil k, fun e he => he, ⟨[], by simp⟩⟩
  | succ n ih =>
    intro E hE k acc
    cases hfc : find_cycle E k with
    | none =>
      rw [breakFrom_none hfc]
      exact ⟨hfc, fun e he => he, ⟨[], by simp⟩⟩
    | some ces =>
      rw [breakFrom_step hfc]
      have hmem := find_cycle_last_mem hfc (k, k)
      have hpos := List.length_pos_of_mem hmem
      have hlen : (E.erase (ces.getLastD (k, k))).length ≤ n := by
        rw [List.length_erase_of_mem hmem]
        omega
      rcases ih _ hlen k (acc ++ [ces.getLastD (k, k)]) with ⟨h1, h2, h3⟩
      refine ⟨h1, fun e he => List.mem_of_mem_erase (h2 e he), ?_⟩
      rcases h3 with ⟨rem, hrem⟩
      exact ⟨ces.getLastD (k, k) :: rem, by rw [hrem]; simp⟩

theorem resolveCycles_subset : ∀ (ks : List GNode) (E : List GEdge)
    (acc : List GEdge), ∀ e ∈ (resolveCycles E ks acc).1, e ∈ E
  | [], E, acc, e, he => he
  | k :: ks, E, acc, e, he => by
    have h1 := resolveCycles_subset ks (breakFrom E k acc).1
      (breakFrom E k acc).2 e he
    exact ((breakFrom_post E.length E (le_refl _) k acc).2.1) e h1

theorem resolveCycles_keyfree : ∀ (ks : List GNode) (E : List GEdge)
    (acc : List GEdge) (k : GNode), k ∈ ks →
    ∀ v, Reach (resolveCycles E ks acc).1 k v →
      ¬ CycleAt (resolveCycles E ks acc).1 v := by
  intro ks
  induction ks with
  | nil => intro E acc k hk; cases hk
  | cons k0 ks ih =>
    intro E acc k hk v hreach hcyc
    rcases List.mem_cons.mp hk with rfl | hk2
    · have hnone := (breakFrom_post E.length E (le_refl _) k acc).1
      have hsub : ∀ e ∈ (resolveCycles (breakFrom E k acc).1 ks
          (breakFrom E k acc).2).1, e ∈ (breakFrom E k acc).1 :=
        resolveCycles_subset ks _ _
      exact find_cycle_none_spec hnone v (reach_mono hsub hreach)
        (cycleAt_mono hsub hcyc)
    · exact ih (breakFrom E k0 acc).1 (breakFrom E k0 acc).2 k hk2 v hreach hcyc

theorem mem_insertSorted : ∀ (l : List GEdge) (e x : GEdge),
    (x ∈ insertSorted e l ↔ x = e ∨ x ∈ l)
  | [], e, x => by simp [insertSorted]
  | a :: l, e, x => by
    unfold insertSorted
    by_cases h : edgeLE e a = true
    · rw [if_pos h]
      simp
    · rw [if_neg h]
      rw [List.mem_cons, mem_insertSorted l e x, List.mem_cons]
      tauto

theorem mem_sortEdges : ∀ (l : List GEdge) (x : GEdge),
    (x ∈ sortEdges l ↔ x ∈ l)
  | [], x => Iff.rfl
  | a :: l, x => by
    show x ∈ insertSorted a (sortEdges l) ↔ _
    rw [mem_insertSorted, mem_sortEdges l x, List.mem_cons]

theorem mem_sortedEdges {dg : DepGraph} {e : GEdge} :
    e ∈ sortedEdges dg ↔ e ∈ edgesOf dg := by
  unfold sortedEdges
  rw [mem_sortEdges, List.mem_dedup]

theorem edgesOf_fst_mem_keys {dg : DepGraph} {e : GEdge}
    (h : e ∈ edgesOf dg) : e.1 ∈ keysOf dg := by
  unfold edgesOf at h
  rcases List.mem_flatMap.mp h with ⟨nv, hnv, h2⟩
  rcases List.mem_flatMap.mp h2 with ⟨vd, hvd, h3⟩
  rcases List.mem_map.mp h3 with ⟨dep, _, rfl⟩
  unfold keysOf
  exact List.mem_flatMap.mpr ⟨nv, hnv, List.mem_map.mpr ⟨vd, hvd, rfl⟩⟩

theorem resolveCycles_acyclic (dg : DepGraph) :
    ∀ v, ¬ CycleAt (resolveCycles (sortedEdges dg) (keysOf dg) []).1 v := by
  intro v hcyc
  have hkey : v ∈ keysOf dg := by
    rcases hcyc with ⟨w, hw, _⟩
    have := resolveCycles_subset (keysOf dg) (sortedEdges dg) [] (v, w) hw
    exact edgesOf_fst_mem_keys (mem_sortedEdges.mp this)
  exact resolveCycles_keyfree (keysOf dg) (sortedEdges dg) [] v hkey v
    (Reach.refl v) hcyc

theorem find_cycle_of_acyclic {E : List GEdge} (hac : ∀ v, ¬ CycleAt E v)
    (k : GNode) : find_cycle E k = none := by
  cases hfc : find_cycle E k with
  | none => rfl
  | some ces =>
    rcases find_cycle_sound hfc with ⟨c, hcyc, _⟩
    rcases isCycle_cycleAt hcyc with ⟨v, _, hca⟩
    exact absurd hca (hac v)

theorem resolveCycles_noop {E : List GEdge} (hac : ∀ v, ¬ CycleAt E v) :
    ∀ (ks : List GNode) (acc : List GEdge), resolveCycles E ks acc = (E, acc)
  | [], acc => rfl
  | k :: ks, acc => by
    show resolveCycles (breakFrom E k acc).1 ks (breakFrom E k acc).2 = (E, acc)
    rw [breakFrom_none (find_cycle_of_acyclic hac k)]
    exact resolveCycles_noop hac ks acc

/-! ## Association-list lemmas -/


theorem lookup2_def {α : Type} (m : List (String × List (String × α)))
    (n v : String) : lookup2 m n v = ((m.lookup n).getD []).lookup v := by
  unfold lookup2
  cases m.lookup n with
  | none => rfl
  | some vm => rfl

theorem lookup_cons_self {α : Type} (k : String) (v : α) (m : List (String × α)) :
    ((k, v) :: m).lookup k = some v := by
  simp [List.lookup_cons]

theorem lookup_cons_ne {α : Type} {k k0 : String} (h : k ≠ k0) (v : α)
    (m : List (String × α)) : ((k0, v) :: m).lookup k = m.lookup k := by
  have hb : (k == k0) = false := beq_eq_false_iff_ne.mpr h
  simp [List.lookup_cons, hb]

theorem lookup_not_mem_keys {α : Type} :
    ∀ (m : List (String × α)) (k : String),
      k ∉ m.map Prod.fst → m.lookup k = none
  | [], _, _ => rfl
  | (k0, v0) :: m, k, h => by
    have h2 : k ≠ k0 ∧ k ∉ m.map Prod.fst := by
      constructor
      · intro hc
        exact h (by simp [hc])
      · intro hc
        exact h (by simp only [List.map_cons, List.mem_cons]; exact Or.inr hc)
    rw [lookup_cons_ne h2.1]
    exact lookup_not_mem_keys m k h2.2

theorem lookup_append_none {α : Type} :
    ∀ (m1 m2 : List (String × α)) (k : String), m1.lookup k = none →
      (m1 ++ m2).lookup k = m2.lookup k
  | [], m2, k, _ => rfl
  | (k0, v0) :: m1, m2, k, h => by
    by_cases h0 : k = k0
    · subst h0
      rw [lookup_cons_self] at h
      cases h
    · rw [lookup_cons_ne h0] at h
      rw [List.cons_append, lookup_cons_ne h0]
      exact lookup_append_none m1 m2 k h

theorem lookup_updAssoc_self {α : Type} :
    ∀ (m : List (String × α)) (k : String) (v : α),
      (updAssoc m k v).lookup k = some v
  | [], k, v => lookup_cons_self k v []
  | (k0, v0) :: m, k, v => by
    unfold updAssoc
    by_cases h0 : k0 = k
    · rw [if_pos h0]
      exact lookup_cons_self k v m
    · rw [if_neg h0]
      rw [lookup_cons_ne (fun hc => h0 hc.symm)]
      exact lookup_updAssoc_self m k v

theorem lookup_updAssoc_ne {α : Type} :
    ∀ (m : List (String × α)) (k k2 : String) (v : α), k2 ≠ k →
      (updAssoc m k v).lookup k2 = m.lookup k2
  | [], k, k2, v, h => by
    unfold updAssoc
    rw [lookup_cons_ne h]
  | (k0, v0) :: m, k, k2, v, h => by
    unfold updAssoc
    by_cases h0 : k0 = k
    · subst h0
      rw [if_pos rfl, lookup_cons_ne h, lookup_cons_ne h]
    · rw [if_neg h0]
      by_cases h2 : k2 = k0
      · subst h2
        rw [lookup_cons_self, lookup_cons_self]
      · rw [lookup_cons_ne h2, lookup_cons_ne h2]
        exact lookup_updAssoc_ne m k k2 v h

theorem addCyc_lookup2 (cd : CycDeps) (nf nt : GNode) :
    lookup2 (addCyc cd nf nt) nf.1 nf.2
      = some ((lookup2 cd nf.1 nf.2).getD [] ++ [nt]) := by
  rw [lookup2_def, lookup2_def]
  cases h1 : cd.lookup nf.1 with
  | none =>
    have hl : (cd ++ [(nf.1, [(nf.2, [nt])])]).lookup nf.1
        = some [(nf.2, [nt])] := by
      rw [lookup_append_none cd _ nf.1 h1]
      exact lookup_cons_self _ _ _
    simp [addCyc, h1, hl, lookup_cons_self]
  | some vm =>
    cases h2 : vm.lookup nf.2 with
    | none =>
      have hl2 : (vm ++ [(nf.2, [nt])]).lookup nf.2 = some [nt] := by
        rw [lookup_append_none vm _ nf.2 h2]
        exact lookup_cons_self _ _ _
      simp [addCyc, h1, h2, lookup_updAssoc_self, hl2]
    | some l =>
      simp [addCyc, h1, h2, lookup_updAssoc_self]

/-! ## Claim C2 -/

theorem cleanup_keys_subset {dg : DepGraph} {k : PName}
    (h : k ∉ dg.map Prod.fst) : k ∉ (cleanupDeps dg).map Prod.fst := by
  intro hc
  rcases List.mem_map.mp hc with ⟨p, hp, rfl⟩
  exact h (List.mem_map.mpr ⟨p, List.mem_of_mem_filter hp, rfl⟩)

theorem cleanup_cons_nonempty {k : PName} {vm : VerMap} (h : vm ≠ [])
    (dg : DepGraph) :
    cleanupDeps ((k, vm) :: dg) = (k, vm) :: cleanupDeps dg := by
  unfold cleanupDeps
  rw [List.filter_cons]
  simp [List.isEmpty_iff, h]

theorem cleanup_cons_empty (k : PName) (dg : DepGraph) :
    cleanupDeps ((k, ([] : VerMap)) :: dg) = cleanupDeps dg := by
  unfold cleanupDeps
  rw [List.filter_cons]
  simp

theorem cleanup_lookup2 :
    ∀ (dg : DepGraph), (dg.map Prod.fst).Nodup →
      ∀ (n : PName) (v : PVer), lookup2 (cleanupDeps dg) n v = lookup2 dg n v
  | [], _, _, _ => rfl
  | (k, vm) :: dg, hnd, n, v => by
    simp only [List.map_cons, List.nodup_cons] at hnd
    rcases hnd with ⟨hk, hnd2⟩
    have hkk : k ∉ dg.map Prod.fst := by
      intro hc
      rcases List.mem_map.mp hc with ⟨p, hp, he⟩
      exact hk (List.mem_map.mpr ⟨p, hp, he⟩)
    by_cases hvm : vm = []
    · subst hvm
      rw [cleanup_cons_empty]
      by_cases hn : n = k
      · subst hn
        rw [lookup2_def, lookup2_def, lookup_cons_self,
          lookup_not_mem_keys (cleanupDeps dg) n (cleanup_keys_subset hkk)]
        rfl
      · rw [lookup2_def ((k, ([] : VerMap)) :: dg) n v, lookup_cons_ne hn,
          ← lookup2_def]
        exact cleanup_lookup2 dg hnd2 n v
    · rw [cleanup_cons_nonempty hvm]
      by_cases hn : n = k
      · subst hn
        rw [lookup2_def, lookup2_def, lookup_cons_self, lookup_cons_self]
      · rw [lookup2_def, lookup2_def, lookup_cons_ne hn, lookup_cons_ne hn,
          ← lookup2_def, ← lookup2_def]
        exact cleanup_lookup2 dg hnd2 n v

theorem cleanup_name_absent :
    ∀ (dg : DepGraph), (dg.map Prod.fst).Nodup →
      ∀ n : PName, ((cleanupDeps dg).lookup n = none ↔
        dg.lookup n = none ∨ dg.lookup n = some [])
  | [], _, n => by simp [cleanupDeps]
  | (k, vm) :: dg, hnd, n => by
    simp only [List.map_cons, List.nodup_cons] at hnd
    rcases hnd with ⟨hk, hnd2⟩
    have hkk : k ∉ dg.map Prod.fst := by
      intro hc
      rcases List.mem_map.mp hc with ⟨p, hp, he⟩
      exact hk (List.mem_map.mpr ⟨p, hp, he⟩)
    by_cases hvm : vm = []
    · subst hvm
      rw [cleanup_cons_empty]
      by_cases hn : n = k
      · subst hn
        rw [lookup_not_mem_keys (cleanupDeps dg) n (cleanup_keys_subset hkk),
          lookup_cons_self]
        simp
      · rw [lookup_cons_ne hn]
        exact cleanup_name_absent dg hnd2 n
    · rw [cleanup_cons_nonempty hvm]
      by_cases hn : n = k
      · subst hn
        rw [lookup_cons_self, lookup_cons_self]
        simp [hvm]
      · rw [lookup_cons_ne hn, lookup_cons_ne hn]
        exact cleanup_name_absent dg hnd2 n

/-- C2 (counterexample): the raw dependency map `{"A": {"1": []}}` has a
`(name, version)` entry whose dependency list is empty, yet after the cleanup
stage the key `("A", "1")` is still present in the dependencies map (with its
empty list): the claimed "absent if and only if the declared list was empty"
fails. The loop only deletes names whose whole version map is empty. -/
theorem claim_C2_counterexample :
    cleanupDeps [("A", [("1", ([] : Deps))])] = [("A", [("1", [])])] ∧
    lookup2 (cleanupDeps [("A", [("1", ([] : Deps))])]) "A" "1" = some [] := by
  constructor
  · rfl
  · rfl

/-- C2 (amended): the cleanup stage drops exactly the package-name entries
whose version map is empty; presence at the `(name, version)` level is
unchanged — in particular an entry with an empty dependency list survives —
and the lock's `sources` and `cyclicDependencies` are untouched by the
cleanup. -/
theorem claim_C2 (dg : DepGraph) (hnd : (dg.map Prod.fst).Nodup) :
    (∀ (n : PName) (v : PVer), lookup2 (cleanupDeps dg) n v = lookup2 dg n v) ∧
    (∀ n : PName, ((cleanupDeps dg).lookup n = none ↔
        dg.lookup n = none ∨ dg.lookup n = some [])) ∧
    (∀ lock : DreamLock, (cleanupStage lock).sources = lock.sources ∧
        (cleanupStage lock).cyclicDependencies = lock.cyclicDependencies) := by
  refine ⟨cleanup_lookup2 dg hnd, cleanup_name_absent dg hnd, ?_⟩
  intro lock
  unfold cleanupStage
  cases lock.generic.dependencies with
  | none => exact ⟨rfl, rfl⟩
  | some dg2 => exact ⟨rfl, rfl⟩

/-- C2 (witness): the amended statement applied to the concrete cyclic
fixture map. -/
theorem claim_C2_witness :
    (∀ (n : PName) (v : PVer),
        lookup2 (cleanupDeps exDg) n v = lookup2 exDg n v) ∧
    (∀ n : PName, ((cleanupDeps exDg).lookup n = none ↔
        exDg.lookup n = none ∨ exDg.lookup n = some [])) ∧
    (∀ lock : DreamLock, (cleanupStage lock).sources = lock.sources ∧
        (cleanupStage lock).cyclicDependencies = lock.cyclicDependencies) :=
  claim_C2 exDg (by decide)


/-! ## Claim C3 -/

/-- C3: unknown extra-argument names are fatal before the translator runs,
but an unparsable flag value is not: for the declared flag `f` given the
value `maybe`, the code prints the "Invalid value" diagnostic and then
continues, and Python `bool("maybe")` silently turns the value into `True`.
The pipeline therefore does not abort on an unparsable flag value. -/
theorem claim_C3 :
    processExtraArgs [("f", ArgKind.flag)] [("f", "maybe")]
      = Except.ok ([("f", ArgVal.b true)], ["Invalid value maybe for argument f"]) ∧
    processExtraArgs [("f", ArgKind.flag)] [("g", "yes")]
      = Except.error (ArgsError.unknownArgs ["g"]) := by
  constructor
  · rfl
  · rfl

/-! ## Claim C4 -/

theorem string_join_cons (x : String) (xs : List String) :
    String.join (x :: xs) = x ++ String.join xs := by
  have hgen : ∀ (ys : List String) (acc : String),
      List.foldl (fun r s => r ++ s) acc ys = acc ++ String.join ys := by
    intro ys
    induction ys with
    | nil =>
      intro acc
      show acc = acc ++ ""
      rw [String.append_empty]
    | cons y ys ih =>
      intro acc
      show List.foldl (fun r s => r ++ s) (acc ++ y) ys = acc ++ String.join (y :: ys)
      rw [ih (acc ++ y)]
      show acc ++ y ++ String.join ys
        = acc ++ List.foldl (fun r s => r ++ s) ("" ++ y) ys
      rw [ih ("" ++ y), String.empty_append, String.append_assoc]
  show List.foldl (fun r s => r ++ s) ("" ++ x) xs = x ++ String.join xs
  rw [hgen xs ("" ++ x), String.empty_append]

theorem intercalate_go_join : ∀ (as : List String) (acc : String),
    String.intercalate.go acc " " as
      = acc ++ String.join (as.map (fun y => " " ++ y))
  | [], acc => by
    show acc = acc ++ String.join ([].map (fun y => " " ++ y))
    rw [List.map_nil, show String.join [] = "" from rfl, String.append_empty]
  | a :: as, acc => by
    show String.intercalate.go (acc ++ " " ++ a) " " as = _
    rw [intercalate_go_join as (acc ++ " " ++ a)]
    rw [List.map_cons, string_join_cons]
    rw [String.append_assoc, String.append_assoc, String.append_assoc]

theorem intercalate_space_cons (x : String) (xs : List String) :
    String.intercalate " " (x :: xs)
      = x ++ String.join (xs.map (fun y => " " ++ y)) := by
  show String.intercalate.go x " " xs = _
  exact intercalate_go_join xs x

theorem argRender_shift :
    ((fun y => " " ++ y) ∘ fun p : String × ArgVal =>
        "--arg " ++ p.1 ++ "=" ++ renderArgVal p.2)
      = fun p : String × ArgVal =>
          " --arg " ++ p.1 ++ "=" ++ renderArgVal p.2 := by
  funext p
  show " " ++ ("--arg " ++ p.1 ++ "=" ++ renderArgVal p.2)
    = " --arg " ++ p.1 ++ "=" ++ renderArgVal p.2
  simp only [← String.append_assoc]
  rfl

/-- C4 (counterexample): supplying the same two extra arguments in a
different order yields an identical argument mapping (identical lookups for
every key) but a different `translatorParams` string: the arguments are
iterated in insertion order, not in a fixed sorted order, so equal mappings
do not always yield equal strings. -/
theorem claim_C4_counterexample :
    mkTranslatorParams ⟨"python", "impure", "pip"⟩ false
        [("b", ArgVal.s "2"), ("a", ArgVal.s "1")]
      ≠ mkTranslatorParams ⟨"python", "impure", "pip"⟩ false
        [("a", ArgVal.s "1"), ("b", ArgVal.s "2")] ∧
    (∀ k : String, List.lookup k [("b", ArgVal.s "2"), ("a", ArgVal.s "1")]
      = List.lookup k [("a", ArgVal.s "1"), ("b", ArgVal.s "2")]) := by
  constructor
  · decide
  · intro k
    by_cases ha : k = "a"
    · subst ha
      rfl
    · by_cases hb : k = "b"
      · subst hb
        rfl
      · rw [lookup_cons_ne hb, lookup_cons_ne ha, lookup_cons_ne ha,
          lookup_cons_ne hb]

/-- C4 (amended): `generic.translatorParams` is the deterministic string
`--translator <subsystem>.<type>.<name>`, then ` --combined` exactly when the
flag was set, then one ` --arg <key>=<value>` per extra argument in the
mapping's insertion order (the order the arguments were supplied); the same
argument list always yields the same string, and the merger stage stores
exactly this string in the lock. -/
theorem claim_C4 (t : Translator) (combined : Bool)
    (args : List (String × ArgVal)) :
    mkTranslatorParams t combined args
      = "--translator " ++ translatorId t
        ++ (if combined then " --combined" else "")
        ++ String.join (args.map
            (fun p => " --arg " ++ p.1 ++ "=" ++ renderArgVal p.2)) ∧
    (∀ (lock : DreamLock) (spec : SourceSpec),
      (mergerStage lock t combined args spec).generic.translatorParams
        = mkTranslatorParams t combined args) := by
  constructor
  · unfold mkTranslatorParams
    cases combined with
    | false =>
      have hlist : ["--translator", translatorId t]
          ++ (if (false : Bool) then ["--combined"] else [])
          ++ (args.map (fun p => "--arg " ++ p.1 ++ "=" ++ renderArgVal p.2))
          = "--translator" :: translatorId t
              :: args.map (fun p => "--arg " ++ p.1 ++ "=" ++ renderArgVal p.2) := by
        simp
      rw [hlist, intercalate_space_cons, List.map_cons, string_join_cons,
        List.map_map, argRender_shift]
      simp only [Bool.false_eq_true, if_false, String.append_empty]
      simp only [← String.append_assoc]
      rfl
    | true =>
      have hlist : ["--translator", translatorId t]
          ++ (if (true : Bool) then ["--combined"] else [])
          ++ (args.map (fun p => "--arg " ++ p.1 ++ "=" ++ renderArgVal p.2))
          = "--translator" :: translatorId t :: "--combined"
              :: args.map (fun p => "--arg " ++ p.1 ++ "=" ++ renderArgVal p.2) := by
        simp
      rw [hlist, intercalate_space_cons, List.map_cons, string_join_cons,
        List.map_cons, string_join_cons, List.map_map, argRender_shift]
      simp only [eq_self_iff_true, if_true]
      simp only [← String.append_assoc]
      rw [String.append_assoc ("--translator" ++ " " ++ translatorId t) " " "--combined"]
      rfl
  · intro lock spec
    unfold mergerStage
    cases lock.sources.lookup lock.generic.mainPackageName with
    | none => rfl
    | some vm => rfl

/-! ## Claim C1 -/

/-- C1 (counterexample): on the graph `a@1 → b@1 → c@1 → b@1`, processing the
node `k = a@1` finds the cycle `[(b@1, c@1), (c@1, b@1)]` as its ordered edge
sequence; the loop removes the last edge `(c@1, b@1)` of that sequence, but
that edge re-enters `b@1`, not the processed node `k = a@1`: the cycle found
from `k` need not return to `k`. -/
theorem claim_C1_counterexample :
    find_cycle exG ("a", "1") = some exCes ∧
    (breakFrom exG ("a", "1") []).2 = [(("c", "1"), ("b", "1"))] ∧
    ((("c", "1"), ("b", "1")) : GEdge).2 ≠ (("a", "1") : GNode) := by
  have h1 : find_cycle exG ("a", "1") = some exCes := by
    simp +decide [find_cycle, visit, visitList, nodesOf, successors, cycleEdges,
      exG, exCes, List.dedup_cons_of_mem, List.dedup_cons_of_not_mem, List.filter]
  refine ⟨h1, ?_, by decide⟩
  have he : exCes.getLastD (("a", "1"), ("a", "1")) = (("c", "1"), ("b", "1")) := rfl
  have h2 : breakFrom exG ("a", "1") []
      = breakFrom (exG.erase ((("c", "1"), ("b", "1")) : GEdge)) ("a", "1")
          [(("c", "1"), ("b", "1"))] := by
    have := @breakFrom_step _ _ [] _ h1
    rwa [he] at this
  have h3 : exG.erase ((("c", "1"), ("b", "1")) : GEdge)
      = [(("a", "1"), ("b", "1")), (("b", "1"), ("c", "1"))] := by decide
  have h4 : find_cycle [((("a", "1") : GNode), (("b", "1") : GNode)),
      ((("b", "1") : GNode), (("c", "1") : GNode))] ("a", "1") = none := by
    simp +decide [find_cycle, visit, visitList, nodesOf, successors, cycleEdges,
      List.dedup_cons_of_mem, List.dedup_cons_of_not_mem, List.filter]
  rw [h2, h3, breakFrom_none h4]

/-- C1 (amended): when the cycle search from `k` returns an ordered edge
sequence, the loop removes exactly the last edge of that sequence from the
live graph — the edge that re-enters the node at which the search closed the
cycle (the sequence's first node), which need not be `k` — and the ledger
appends the removed edge's target under its origin's name and version. -/
theorem claim_C1 (E : List GEdge) (k : GNode) (acc : List GEdge)
    (ces : List GEdge) (h : find_cycle E k = some ces) :
    ces ≠ [] ∧
    breakFrom E k acc
      = breakFrom (E.erase (ces.getLastD (k, k))) k
          (acc ++ [ces.getLastD (k, k)]) ∧
    (ces.getLastD (k, k)).2 = (ces.headD (k, k)).1 ∧
    (∀ cd : CycDeps,
      lookup2 (addCyc cd (ces.getLastD (k, k)).1 (ces.getLastD (k, k)).2)
          (ces.getLastD (k, k)).1.1 (ces.getLastD (k, k)).1.2
        = some ((lookup2 cd (ces.getLastD (k, k)).1.1
            (ces.getLastD (k, k)).1.2).getD [] ++ [(ces.getLastD (k, k)).2])) := by
  rcases find_cycle_some_shape h (k, k) with ⟨hne, _, hshape⟩
  exact ⟨hne, breakFrom_step h, hshape, fun cd => addCyc_lookup2 cd _ _⟩

/-- C1 (witness): the amended statement applied to the fixture graph. -/
theorem claim_C1_witness :
    exCes ≠ [] ∧
    breakFrom exG ("a", "1") []
      = breakFrom (exG.erase (exCes.getLastD ((("a", "1") : GNode), ("a", "1")))) ("a", "1")
          ([] ++ [exCes.getLastD ((("a", "1") : GNode), ("a", "1"))]) ∧
    (exCes.getLastD ((("a", "1") : GNode), ("a", "1"))).2
      = (exCes.headD ((("a", "1") : GNode), ("a", "1"))).1 ∧
    (∀ cd : CycDeps,
      lookup2 (addCyc cd (exCes.getLastD ((("a", "1") : GNode), ("a", "1"))).1
            (exCes.getLastD ((("a", "1") : GNode), ("a", "1"))).2)
          (exCes.getLastD ((("a", "1") : GNode), ("a", "1"))).1.1
          (exCes.getLastD ((("a", "1") : GNode), ("a", "1"))).1.2
        = some ((lookup2 cd (exCes.getLastD ((("a", "1") : GNode), ("a", "1"))).1.1
            (exCes.getLastD ((("a", "1") : GNode), ("a", "1"))).1.2).getD []
              ++ [(exCes.getLastD ((("a", "1") : GNode), ("a", "1"))).2])) :=
  claim_C1 exG ("a", "1") [] exCes (by
    simp +decide [find_cycle, visit, visitList, nodesOf, successors, cycleEdges,
      exG, exCes, List.dedup_cons_of_mem, List.dedup_cons_of_not_mem, List.filter])

/-! ## Claim C5 -/

/-- C5 (counterexample): on the translator output holding the cyclic map
`A@1 → B@1 → A@1`, the stage finishes with the removed edge recorded under
`cyclicDependencies`, yet the lock's dependencies map is unchanged — the
pruning only happened on the discarded in-memory graph — so the node
`("A", "1")` still reaches itself through the map's edges: the dependencies
map is not a directed acyclic graph. -/
theorem claim_C5_counterexample :
    (processDeps exLock).generic.dependencies = some exDg ∧
    (processDeps exLock).cyclicDependencies = some [("B", [("1", [("A", "1")])])] ∧
    CycleAt (edgesOf exDg) ("A", "1") := by
  refine ⟨?_, ?_, ?_⟩
  · show (match exLock.generic.dependencies with
      | none => exLock
      | some dg =>
        { exLock with
          generic := { exLock.generic with dependencies := some (cleanupDeps dg) }
          cyclicDependencies := some (buildCyclic
            (resolveCycles (sortedEdges (cleanupDeps dg))
              (keysOf (cleanupDeps dg)) []).2) }).generic.dependencies = some exDg
    rfl
  · show (match exLock.generic.dependencies with
      | none => exLock
      | some dg =>
        { exLock with
          generic := { exLock.generic with dependencies := some (cleanupDeps dg) }
          cyclicDependencies := some (buildCyclic
            (resolveCycles (sortedEdges (cleanupDeps dg))
              (keysOf (cleanupDeps dg)) []).2) }).cyclicDependencies
        = some [("B", [("1", [("A", "1")])])]
    simp +decide [processDeps, exLock, exDg, cleanupDeps, sortedEdges, keysOf,
      edgesOf, sortEdges, insertSorted, resolveCycles, breakFrom, find_cycle,
      visit, visitList, nodesOf, successors, cycleEdges, buildCyclic, addCyc,
      updAssoc, List.dedup_cons_of_mem, List.dedup_cons_of_not_mem, List.filter]
  · refine ⟨("B", "1"), by decide, ?_⟩
    exact Reach.step (by decide) (Reach.refl ("A", "1"))

/-- C5 (amended): when the cycle resolver finishes, the in-memory live graph
it pruned is acyclic — no node reaches itself along one or more of its
remaining edges — but that graph is discarded: the lock's dependencies map is
set to the cleaned map with all its declared edges intact. -/
theorem claim_C5 (lock : DreamLock) (dg : DepGraph)
    (h : lock.generic.dependencies = some dg) :
    (processDeps lock).generic.dependencies = some (cleanupDeps dg) ∧
    (∀ v, ¬ CycleAt (resolveCycles (sortedEdges (cleanupDeps dg))
        (keysOf (cleanupDeps dg)) []).1 v) := by
  constructor
  · unfold processDeps
    rw [h]
  · exact resolveCycles_acyclic (cleanupDeps dg)

/-- C5 (witness): the amended statement applied to the cyclic fixture lock. -/
theorem claim_C5_witness :
    (processDeps exLock).generic.dependencies = some (cleanupDeps exDg) ∧
    (∀ v, ¬ CycleAt (resolveCycles (sortedEdges (cleanupDeps exDg))
        (keysOf (cleanupDeps exDg)) []).1 v) :=
  claim_C5 exLock exDg rfl

/-! ## Claim C6 -/

/-- C6: on a dependency graph with no directed cycle the cycle resolver is a
no-op — the output graph is the input graph, no edge is removed, and the
`cyclicDependencies` ledger is the empty map — and hence a second run on its
own output removes nothing either. -/
theorem claim_C6 :
    (∀ (E : List GEdge) (keys : List GNode), (∀ v, ¬ CycleAt E v) →
      resolveCycles E keys [] = (E, []) ∧
      resolveCycles (resolveCycles E keys []).1 keys [] = (E, []) ∧
      buildCyclic (resolveCycles E keys []).2 = []) ∧
    (∀ (lock : DreamLock) (dg : DepGraph), lock.generic.dependencies = some dg →
      (∀ v, ¬ CycleAt (sortedEdges (cleanupDeps dg)) v) →
      (processDeps lock).cyclicDependencies = some []) := by
  constructor
  · intro E keys hac
    have h1 : resolveCycles E keys [] = (E, []) := resolveCycles_noop hac keys []
    refine ⟨h1, ?_, ?_⟩
    · rw [h1]
      exact resolveCycles_noop hac keys []
    · rw [h1]
      rfl
  · intro lock dg h hac
    unfold processDeps
    rw [h]
    show some (buildCyclic (resolveCycles (sortedEdges (cleanupDeps dg))
      (keysOf (cleanupDeps dg)) []).2) = some []
    rw [resolveCycles_noop hac (keysOf (cleanupDeps dg)) []]
    rfl

theorem single_edge_acyclic :
    ∀ v, ¬ CycleAt [((("a", "1") : GNode), (("b", "1") : GNode))] v := by
  have hstay : ∀ x y : GNode,
      Reach [((("a", "1") : GNode), (("b", "1") : GNode))] x y →
      x = ("b", "1") → y = ("b", "1") := by
    intro x y hr
    induction hr with
    | refl u => exact fun h => h
    | step he _ ih =>
      intro hx
      subst hx
      have := List.mem_singleton.mp he
      simp [Prod.ext_iff] at this
  rintro v ⟨w, hw, hr⟩
  have heq := List.mem_singleton.mp hw
  have hv : v = ("a", "1") := congrArg Prod.fst heq
  have hwb : w = ("b", "1") := congrArg Prod.snd heq
  have := hstay w v hr hwb
  rw [hv] at this
  simp [Prod.ext_iff] at this

/-- C6 (witness): the statement applied to the acyclic one-edge fixture. -/
theorem claim_C6_witness :
    (resolveCycles [((("a", "1") : GNode), (("b", "1") : GNode))]
        [("a", "1"), ("b", "1")] []
      = ([((("a", "1") : GNode), (("b", "1") : GNode))], []) ∧
      resolveCycles (resolveCycles [((("a", "1") : GNode), (("b", "1") : GNode))]
          [("a", "1"), ("b", "1")] []).1 [("a", "1"), ("b", "1")] []
        = ([((("a", "1") : GNode), (("b", "1") : GNode))], []) ∧
      buildCyclic (resolveCycles [((("a", "1") : GNode), (("b", "1") : GNode))]
          [("a", "1"), ("b", "1")] []).2 = []) ∧
    (processDeps exLockAcyc).cyclicDependencies = some [] := by
  have hsort : sortedEdges (cleanupDeps exDgAcyc)
      = [((("a", "1") : GNode), (("b", "1") : GNode))] := rfl
  constructor
  · exact claim_C6.1 [((("a", "1") : GNode), (("b", "1") : GNode))]
      [("a", "1"), ("b", "1")] single_edge_acyclic
  · refine claim_C6.2 exLockAcyc exDgAcyc rfl ?_
    rw [hsort]
    exact single_edge_acyclic

/-! ## Claim C7 -/

theorem lastEqPrefix_ne_nil {line g : List Char}
    (h : lastEqPrefix line = some g) : g ≠ [] := by
  unfold lastEqPrefix at h
  by_cases hr : (line.reverse.dropWhile (fun c => c ≠ '=')).isEmpty
  · rw [if_pos hr] at h
    cases h
  · rw [if_neg hr] at h
    injection h with h2
    rw [← h2]
    intro hc
    have hrnil : List.dropWhile (fun c => decide (c ≠ '=')) line.reverse = [] :=
      List.reverse_eq_nil_iff.mp hc
    rw [hrnil] at hr
    exact hr rfl

theorem extractFodChars_ne_nil :
    ∀ {cs g : List Char}, extractFodChars cs = some g → g ≠ [] := by
  intro cs
  induction cs with
  | nil => intro g h; cases h
  | cons c cs ih =>
    intro g h
    unfold extractFodChars at h
    by_cases hp : (("FOD_PATH=".toList).isPrefixOf (c :: cs)) = true
    · rw [if_pos hp] at h
      cases hl : lastEqPrefix (lineOf ((c :: cs).drop 9)) with
      | some g2 =>
        rw [hl] at h
        injection h with h2
        rw [← h2]
        exact lastEqPrefix_ne_nil hl
      | none =>
        rw [hl] at h
        exact ih h
    · rw [if_neg hp] at h
      exact ih h

theorem extractFodHash_ne_empty {stderrText h : String}
    (hx : extractFodHash stderrText = some h) : h ≠ "" := by
  unfold extractFodHash at hx
  cases hg : extractFodChars stderrText.data with
  | none => rw [hg] at hx; cases hx
  | some g =>
    rw [hg] at hx
    simp only [Option.map_some', Option.some.injEq] at hx
    have hne := extractFodChars_ne_nil hg
    rw [← hx]
    intro hc
    have : g = [] := by
      have := congrArg String.data hc
      exact this
    exact hne this

/-- C7: in combined-hash mode, immediately after the stripping step the lock
written to the output path has every per-source `hash` field empty and
`sourcesCombinedHash` equal to the empty string; after a successful oracle
call the stage result carries exactly the hash recovered from the oracle's
diagnostics, and that value is never empty (it always ends in the marker's
equals sign). -/
theorem claim_C7 (lock : DreamLock) (stderrText : String) (h : String) :
    (∀ n vm, (n, vm) ∈ (combinedHashStage lock stderrText).2.sources →
      ∀ v sp, (v, sp) ∈ vm → ∀ x, ("hash", x) ∈ sp → x = "") ∧
    (combinedHashStage lock stderrText).2.generic.sourcesCombinedHash
      = some "" ∧
    (extractFodHash stderrText = some h →
      ∃ fin, (combinedHashStage lock stderrText).1 = Except.ok fin ∧
        fin.generic.sourcesCombinedHash = some h ∧ h ≠ "") := by
  have hwr : (combinedHashStage lock stderrText).2
      = { strip_hashes_from_lock lock with
          generic := { (strip_hashes_from_lock lock).generic with
            sourcesCombinedHash := some "" } } := by
    unfold combinedHashStage
    cases hext : extractFodHash stderrText with
    | none => rfl
    | some hh => rfl
  refine ⟨?_, ?_, ?_⟩
  · intro n vm hvm v sp hsp x hx
    rw [hwr] at hvm
    have hvm2 : (n, vm) ∈ (strip_hashes_from_lock lock).sources := hvm
    unfold strip_hashes_from_lock at hvm2
    simp only [List.mem_map] at hvm2
    rcases hvm2 with ⟨nv, _, heq⟩
    have hvme : vm = nv.2.map (fun vs =>
        (vs.1, vs.2.map (fun kv => if kv.1 = "hash" then (kv.1, "") else kv))) :=
      (congrArg Prod.snd heq).symm
    rw [hvme] at hsp
    simp only [List.mem_map] at hsp
    rcases hsp with ⟨vs, _, heq2⟩
    have hspe : sp = vs.2.map (fun kv => if kv.1 = "hash" then (kv.1, "") else kv) :=
      (congrArg Prod.snd heq2).symm
    rw [hspe] at hx
    simp only [List.mem_map] at hx
    rcases hx with ⟨kv, _, heq3⟩
    by_cases hk : kv.1 = "hash"
    · rw [if_pos hk] at heq3
      exact (congrArg Prod.snd heq3).symm
    · rw [if_neg hk] at heq3
      exact absurd (congrArg Prod.fst heq3) (by simpa using hk)
  · rw [hwr]
  · intro hext
    unfold combinedHashStage
    rw [hext]
    exact ⟨_, rfl, rfl, extractFodHash_ne_empty hext⟩

/-- C7 (witness): the statement applied to the fixture lock and a diagnostics
text holding the marker. -/
theorem claim_C7_witness :
    (∀ n vm, (n, vm) ∈
        (combinedHashStage exLockH "log FOD_PATH=sha256-xyz=\nrest").2.sources →
      ∀ v sp, (v, sp) ∈ vm → ∀ x, ("hash", x) ∈ sp → x = "") ∧
    (combinedHashStage exLockH
        "log FOD_PATH=sha256-xyz=\nrest").2.generic.sourcesCombinedHash
      = some "" ∧
    (∃ fin, (combinedHashStage exLockH "log FOD_PATH=sha256-xyz=\nrest").1
        = Except.ok fin ∧
      fin.generic.sourcesCombinedHash = some "sha256-xyz=" ∧
      "sha256-xyz=" ≠ "") := by
  have hc := claim_C7 exLockH "log FOD_PATH=sha256-xyz=\nrest" "sha256-xyz="
  exact ⟨hc.1, hc.2.1, hc.2.2 rfl⟩

/-! ## Claim C9 -/

/-- C9 (counterexample): on the missing-marker failure path the pipeline
raises the fatal exception, yet the output location still holds a lock — the
hash-stripped intermediate written before the oracle call, with its combined
hash the empty string and the per-source hash field emptied — although the
input lock carried a real hash: the output is neither absent nor a complete
final artifact. -/
theorem claim_C9_counterexample :
    (combinedModeRun exLockH "error: build failed").1
      = Except.error "Could not find FOD hash in FOD log" ∧
    (combinedModeRun exLockH "error: build failed").2
      = some
          { generic :=
              { mainPackageName := "A", mainPackageVersion := "1",
                translatedBy := "", translatorParams := "",
                sourcesCombinedHash := some "", dependencies := none },
            sources := [("A", [("1", [("type", "http"), ("hash", "")])])],
            cyclicDependencies := none } ∧
    lookup2 exLockH.sources "A" "1"
      = some [("type", "http"), ("hash", "sha256-aaa")] := by
  refine ⟨rfl, rfl, rfl⟩

/-- C9 (amended): on the combined-hash failure path (oracle marker absent)
the pipeline aborts with the fatal error but the output location keeps the
hash-stripped intermediate lock written before the oracle call; the file is
not removed, and any lock found there has the empty combined hash that marks
it as partial. -/
theorem claim_C9 (lock : DreamLock) (stderrText : String)
    (h : extractFodHash stderrText = none) :
    (combinedModeRun lock stderrText).1
      = Except.error "Could not find FOD hash in FOD log" ∧
    (combinedModeRun lock stderrText).2
      = some { strip_hashes_from_lock lock with
          generic := { (strip_hashes_from_lock lock).generic with
            sourcesCombinedHash := some "" } } ∧
    (∀ l, (combinedModeRun lock stderrText).2 = some l →
      l.generic.sourcesCombinedHash = some "") := by
  have h2 : (combinedModeRun lock stderrText)
      = (Except.error "Could not find FOD hash in FOD log",
         some { strip_hashes_from_lock lock with
           generic := { (strip_hashes_from_lock lock).generic with
             sourcesCombinedHash := some "" } }) := by
    simp only [combinedModeRun, combinedHashStage, h]
  refine ⟨by rw [h2], by rw [h2], ?_⟩
  intro l hl
  rw [h2] at hl
  injection hl with hl2
  rw [← hl2]

/-- C9 (witness): the amended statement applied to the fixture lock and a
marker-free diagnostics text. -/
theorem claim_C9_witness :
    (combinedModeRun exLockH "error: build failed").1
      = Except.error "Could not find FOD hash in FOD log" ∧
    (combinedModeRun exLockH "error: build failed").2
      = some { strip_hashes_from_lock exLockH with
          generic := { (strip_hashes_from_lock exLockH).generic with
            sourcesCombinedHash := some "" } } ∧
    (∀ l, (combinedModeRun exLockH "error: build failed").2 = some l →
      l.generic.sourcesCombinedHash = some "") :=
  claim_C9 exLockH "error: build failed" rfl

/-! ## Claim C10 -/

/-- C10: for a raw translator lock (one with no `cyclicDependencies` key),
the processed lock has a `cyclicDependencies` key exactly when the `_generic`
section has a `dependencies` key: with `dependencies` absent the whole
cleanup-and-cycle stage is skipped and the lock is returned unchanged, and
with `dependencies` present the ledger is always set — to the empty map when
no edge was removed. -/
theorem claim_C10 (lock : DreamLock) (hraw : lock.cyclicDependencies = none) :
    ((processDeps lock).cyclicDependencies ≠ none ↔
      lock.generic.dependencies ≠ none) ∧
    (lock.generic.dependencies = none → processDeps lock = lock) ∧
    (∀ dg, lock.generic.dependencies = some dg →
      (processDeps lock).cyclicDependencies
        = some (buildCyclic (resolveCycles (sortedEdges (cleanupDeps dg))
            (keysOf (cleanupDeps dg)) []).2) ∧
      ((resolveCycles (sortedEdges (cleanupDeps dg))
          (keysOf (cleanupDeps dg)) []).2 = [] →
        (processDeps lock).cyclicDependencies = some [])) := by
  cases hdep : lock.generic.dependencies with
  | none =>
    have hid : processDeps lock = lock := by
      unfold processDeps
      rw [hdep]
    refine ⟨?_, fun _ => hid, ?_⟩
    · rw [hid, hraw]
    · intro dg hc
      cases hc
  | some dg0 =>
    have hset : (processDeps lock).cyclicDependencies
        = some (buildCyclic (resolveCycles (sortedEdges (cleanupDeps dg0))
            (keysOf (cleanupDeps dg0)) []).2) := by
      unfold processDeps
      rw [hdep]
    refine ⟨?_, ?_, ?_⟩
    · rw [hset]
      simp
    · intro hc
      cases hc
    · intro dg hc
      injection hc with hc2
      subst hc2
      refine ⟨hset, ?_⟩
      intro hrem
      rw [hset, hrem]
      rfl

/-- C10 (witness): the statement applied to the raw acyclic fixture lock. -/
theorem claim_C10_witness :
    ((processDeps exLockAcyc).cyclicDependencies ≠ none ↔
      exLockAcyc.generic.dependencies ≠ none) ∧
    (exLockAcyc.generic.dependencies = none → processDeps exLockAcyc = exLockAcyc) ∧
    (∀ dg, exLockAcyc.generic.dependencies = some dg →
      (processDeps exLockAcyc).cyclicDependencies
        = some (buildCyclic (resolveCycles (sortedEdges (cleanupDeps dg))
            (keysOf (cleanupDeps dg)) []).2) ∧
      ((resolveCycles (sortedEdges (cleanupDeps dg))
          (keysOf (cleanupDeps dg)) []).2 = [] →
        (processDeps exLockAcyc).cyclicDependencies = some [])) :=
  claim_C10 exLockAcyc rfl

/-! ## Serialization round-trip: string literal layer -/

/-- `hexVal` inverts `hexDigit` on digit values. -/
theorem hexVal_hexDigit : ∀ x : Nat, x < 16 → hexVal (hexDigit x) = some x := by
  decide

/-- A character's code point avoids the surrogate range and stays below
0x110000. -/
theorem char_toNat_valid (c : Char) :
    c.toNat < 0xd800 ∨ (0xe000 ≤ c.toNat ∧ c.toNat < 0x110000) := by
  have h := c.valid
  unfold UInt32.isValidChar at h
  rcases h with h | h
  · left
    exact h
  · right
    exact h

/-- A hex digit is never a newline. -/
theorem hexVal_not_nl {c : Char} {a : Nat} (h : hexVal c = some a) :
    c ≠ '\n' := by
  intro he
  subst he
  rw [show hexVal '\n' = none from by decide] at h
  exact Option.noConfusion h

/-- A decodable simple-escape character is never a newline. -/
theorem escDecode_not_nl {e c : Char} (h : escDecode e = some c) :
    e ≠ '\n' := by
  intro he
  subst he
  rw [show escDecode '\n' = none from by decide] at h
  exact Option.noConfusion h

/-- The escaped image `json.dumps` writes for each character decodes back to
that character: the whole escaped body of a dumped string stands in
`BodyChars` to the original character list. -/
theorem escape_body : ∀ cs : List Char, BodyChars cs (cs.flatMap escapeChar) := by
  intro cs
  induction cs with
  | nil => exact BodyChars.nil
  | cons c cs ih =>
    rw [List.flatMap_cons]
    by_cases h1 : c = '"'
    · subst h1
      show BodyChars ('"' :: cs) ('\\' :: '"' :: cs.flatMap escapeChar)
      exact BodyChars.esc (by decide) (by decide) ih
    by_cases h2 : c = '\\'
    · subst h2
      show BodyChars ('\\' :: cs) ('\\' :: '\\' :: cs.flatMap escapeChar)
      exact BodyChars.esc (by decide) (by decide) ih
    by_cases h3 : c = '\n'
    · subst h3
      show BodyChars ('\n' :: cs) ('\\' :: 'n' :: cs.flatMap escapeChar)
      exact BodyChars.esc (by decide) (by decide) ih
    by_cases h4 : c = '\t'
    · subst h4
      show BodyChars ('\t' :: cs) ('\\' :: 't' :: cs.flatMap escapeChar)
      exact BodyChars.esc (by decide) (by decide) ih
    by_cases h5 : c = '\r'
    · subst h5
      show BodyChars ('\r' :: cs) ('\\' :: 'r' :: cs.flatMap escapeChar)
      exact BodyChars.esc (by decide) (by decide) ih
    by_cases h6 : c = '\x08'
    · subst h6
      show BodyChars ('\x08' :: cs) ('\\' :: 'b' :: cs.flatMap escapeChar)
      exact BodyChars.esc (by decide) (by decide) ih
    by_cases h7 : c = '\x0c'
    · subst h7
      show BodyChars ('\x0c' :: cs) ('\\' :: 'f' :: cs.flatMap escapeChar)
      exact BodyChars.esc (by decide) (by decide) ih
    by_cases h8 : c.toNat < 0x20 ∨ 0x7e < c.toNat
    · have he : escapeChar c = uEscape c.toNat := by
        simp only [escapeChar, if_neg h1, if_neg h2, if_neg h3, if_neg h4,
          if_neg h5, if_neg h6, if_neg h7, if_pos h8]
      rw [he]
      by_cases hlt : c.toNat < 0x10000
      · have hu : uEscape c.toNat = '\\' :: 'u' :: hex4 c.toNat := by
          simp only [uEscape, if_pos hlt]
        rw [hu, hex4]
        have harith : c.toNat / 4096 % 16 * 4096 + c.toNat / 256 % 16 * 256 +
            c.toNat / 16 % 16 * 16 + c.toNat % 16 = c.toNat := by
          omega
        have hrange : c.toNat / 4096 % 16 * 4096 + c.toNat / 256 % 16 * 256 +
            c.toNat / 16 % 16 * 16 + c.toNat % 16 < 0xd800 ∨
            0xe000 ≤ c.toNat / 4096 % 16 * 4096 + c.toNat / 256 % 16 * 256 +
              c.toNat / 16 % 16 * 16 + c.toNat % 16 := by
          rw [harith]
          rcases char_toNat_valid c with h | h
          · left
            exact h
          · right
            exact h.1
        have hb := @BodyChars.uesc cs (cs.flatMap escapeChar)
          (hexDigit (c.toNat / 4096 % 16)) (hexDigit (c.toNat / 256 % 16))
          (hexDigit (c.toNat / 16 % 16)) (hexDigit (c.toNat % 16))
          (c.toNat / 4096 % 16) (c.toNat / 256 % 16)
          (c.toNat / 16 % 16) (c.toNat % 16)
          (hexVal_hexDigit _ (by omega)) (hexVal_hexDigit _ (by omega))
          (hexVal_hexDigit _ (by omega)) (hexVal_hexDigit _ (by omega))
          hrange ih
        rw [harith, Char.ofNat_toNat] at hb
        exact hb
      · have hN2 : c.toNat < 0x110000 := by
          rcases char_toNat_valid c with h | h
          · omega
          · exact h.2
        have hu : uEscape c.toNat =
            ('\\' :: 'u' :: hex4 (0xd800 + (c.toNat - 0x10000) / 0x400))
              ++ ('\\' :: 'u' :: hex4 (0xdc00 + (c.toNat - 0x10000) % 0x400)) := by
          simp only [uEscape, if_neg hlt]
        rw [hu, hex4, hex4]
        have hn1 : (0xd800 + (c.toNat - 0x10000) / 0x400) / 4096 % 16 * 4096 +
            (0xd800 + (c.toNat - 0x10000) / 0x400) / 256 % 16 * 256 +
            (0xd800 + (c.toNat - 0x10000) / 0x400) / 16 % 16 * 16 +
            (0xd800 + (c.toNat - 0x10000) / 0x400) % 16 =
            0xd800 + (c.toNat - 0x10000) / 0x400 := by
          omega
        have hm1 : (0xdc00 + (c.toNat - 0x10000) % 0x400) / 4096 % 16 * 4096 +
            (0xdc00 + (c.toNat - 0x10000) % 0x400) / 256 % 16 * 256 +
            (0xdc00 + (c.toNat - 0x10000) % 0x400) / 16 % 16 * 16 +
            (0xdc00 + (c.toNat - 0x10000) % 0x400) % 16 =
            0xdc00 + (c.toNat - 0x10000) % 0x400 := by
          omega
        have hb := @BodyChars.upair cs (cs.flatMap escapeChar)
          (hexDigit ((0xd800 + (c.toNat - 0x10000) / 0x400) / 4096 % 16))
          (hexDigit ((0xd800 + (c.toNat - 0x10000) / 0x400) / 256 % 16))
          (hexDigit ((0xd800 + (c.toNat - 0x10000) / 0x400) / 16 % 16))
          (hexDigit ((0xd800 + (c.toNat - 0x10000) / 0x400) % 16))
          (hexDigit ((0xdc00 + (c.toNat - 0x10000) % 0x400) / 4096 % 16))
          (hexDigit ((0xdc00 + (c.toNat - 0x10000) % 0x400) / 256 % 16))
          (hexDigit ((0xdc00 + (c.toNat - 0x10000) % 0x400) / 16 % 16))
          (hexDigit ((0xdc00 + (c.toNat - 0x10000) % 0x400) % 16))
          ((0xd800 + (c.toNat - 0x10000) / 0x400) / 4096 % 16)
          ((0xd800 + (c.toNat - 0x10000) / 0x400) / 256 % 16)
          ((0xd800 + (c.toNat - 0x10000) / 0x400) / 16 % 16)
          ((0xd800 + (c.toNat - 0x10000) / 0x400) % 16)
          ((0xdc00 + (c.toNat - 0x10000) % 0x400) / 4096 % 16)
          ((0xdc00 + (c.toNat - 0x10000) % 0x400) / 256 % 16)
          ((0xdc00 + (c.toNat - 0x10000) % 0x400) / 16 % 16)
          ((0xdc00 + (c.toNat - 0x10000) % 0x400) % 16)
          (hexVal_hexDigit _ (by omega)) (hexVal_hexDigit _ (by omega))
          (hexVal_hexDigit _ (by omega)) (hexVal_hexDigit _ (by omega))
          (hexVal_hexDigit _ (by omega)) (hexVal_hexDigit _ (by omega))
          (hexVal_hexDigit _ (by omega)) (hexVal_hexDigit _ (by omega))
          (by rw [hn1]; omega) (by rw [hn1]; omega)
          (by rw [hm1]; constructor <;> omega) ih
        rw [hn1, hm1] at hb
        have hc : Char.ofNat (0x10000 +
            (0xd800 + (c.toNat - 0x10000) / 0x400 - 0xd800) * 0x400 +
            (0xdc00 + (c.toNat - 0x10000) % 0x400 - 0xdc00)) = c := by
          have : 0x10000 + (0xd800 + (c.toNat - 0x10000) / 0x400 - 0xd800) * 0x400 +
              (0xdc00 + (c.toNat - 0x10000) % 0x400 - 0xdc00) = c.toNat := by
            omega
          rw [this, Char.ofNat_toNat]
        rw [hc] at hb
        simp only [List.cons_append, List.nil_append]
        exact hb
    · have he : escapeChar c = [c] := by
        simp only [escapeChar, if_neg h1, if_neg h2, if_neg h3, if_neg h4,
          if_neg h5, if_neg h6, if_neg h7, if_neg h8]
      rw [he]
      exact BodyChars.plain h1 h2 (by omega) ih

/-- The raw characters of a string literal body never include a raw
newline. -/
theorem bodyChars_no_nl {content raw : List Char} (h : BodyChars content raw) :
    '\n' ∉ raw := by
  induction h with
  | nil => simp
  | plain hq hb hge _ ih =>
    intro hm
    rcases List.mem_cons.mp hm with he | hm2
    · rw [← he] at hge
      revert hge
      decide
    · exact ih hm2
  | esc hu hdec _ ih =>
    intro hm
    rcases List.mem_cons.mp hm with he | hm2
    · exact absurd he (by decide)
    rcases List.mem_cons.mp hm2 with he | hm3
    · exact escDecode_not_nl hdec he.symm
    · exact ih hm3
  | uesc h1 h2 h3 h4 a b c d e1 e2 e3 e4 hr _ ih =>
    intro hm
    simp only [List.mem_cons] at hm
    rcases hm with he | he | he | he | he | he | hm2
    · exact absurd he (by decide)
    · exact absurd he (by decide)
    · exact hexVal_not_nl e1 he.symm
    · exact hexVal_not_nl e2 he.symm
    · exact hexVal_not_nl e3 he.symm
    · exact hexVal_not_nl e4 he.symm
    · exact ih hm2
  | upair h1 h2 h3 h4 g1 g2 g3 g4 a b c d a2 b2 c2 d2 e1 e2 e3 e4 f1 f2 f3 f4
      hr1 hr2 hr3 _ ih =>
    intro hm
    simp only [List.mem_cons] at hm
    rcases hm with he | he | he | he | he | he | he | he | he | he | he | he | hm2
    · exact absurd he (by decide)
    · exact absurd he (by decide)
    · exact hexVal_not_nl e1 he.symm
    · exact hexVal_not_nl e2 he.symm
    · exact hexVal_not_nl e3 he.symm
    · exact hexVal_not_nl e4 he.symm
    · exact absurd he (by decide)
    · exact absurd he (by decide)
    · exact hexVal_not_nl f1 he.symm
    · exact hexVal_not_nl f2 he.symm
    · exact hexVal_not_nl f3 he.symm
    · exact hexVal_not_nl f4 he.symm
    · exact ih hm2

/-- A closing quote ends the literal at once. -/
theorem lexStrBody_quote (X : List Char) :
    lexStrBody ('"' :: X) = some ([], ⟨X, Nat.le_succ _⟩) := by
  simp only [lexStrBody, ite_true]

/-- A plain character is consumed and kept. -/
theorem lexStrBody_plain_step {c : Char} {cs content r : List Char}
    {hr : r.length ≤ cs.length}
    (h1 : c ≠ '"') (h2 : c ≠ '\\') (h3 : ¬ c.toNat < 0x20)
    (h : lexStrBody cs = some (content, ⟨r, hr⟩)) :
    ∃ hb, lexStrBody (c :: cs) = some (c :: content, ⟨r, hb⟩) := by
  refine ⟨le_trans hr (Nat.le_succ _), ?_⟩
  simp only [lexStrBody, if_neg h1, if_neg h2, if_neg h3, h]

/-- A simple escape decodes to its character. -/
theorem lexStrBody_esc_step {e c2 : Char} {cs content r : List Char}
    {hr : r.length ≤ cs.length}
    (hu : e ≠ 'u') (hdec : escDecode e = some c2)
    (h : lexStrBody cs = some (content, ⟨r, hr⟩)) :
    ∃ hb, lexStrBody ('\\' :: e :: cs) = some (c2 :: content, ⟨r, hb⟩) := by
  refine ⟨le_trans hr (by simp; omega), ?_⟩
  simp +decide only [lexStrBody, lexEsc, if_neg hu, hdec, h, ite_true, ite_false]

/-- A `\uXXXX` escape of a non-surrogate code point decodes to that code
point. -/
theorem lexStrBody_uesc_step {h1 h2 h3 h4 : Char} {a b c d : Nat}
    {cs content r : List Char} {hr : r.length ≤ cs.length}
    (e1 : hexVal h1 = some a) (e2 : hexVal h2 = some b)
    (e3 : hexVal h3 = some c) (e4 : hexVal h4 = some d)
    (hC : a * 4096 + b * 256 + c * 16 + d < 0xd800 ∨
      0xe000 ≤ a * 4096 + b * 256 + c * 16 + d)
    (h : lexStrBody cs = some (content, ⟨r, hr⟩)) :
    ∃ hb, lexStrBody ('\\' :: 'u' :: h1 :: h2 :: h3 :: h4 :: cs) =
      some (Char.ofNat (a * 4096 + b * 256 + c * 16 + d) :: content,
        ⟨r, hb⟩) := by
  refine ⟨le_trans hr (by simp; omega), ?_⟩
  simp +decide only [lexStrBody, lexEsc, lexU, readU, e1, e2, e3, e4, hC, h,
    ite_true, ite_false]

/-- A surrogate pair of `\uXXXX` escapes decodes to the combined
supplementary code point. -/
theorem lexStrBody_upair_step {h1 h2 h3 h4 g1 g2 g3 g4 : Char}
    {a b c d a2 b2 c2 d2 : Nat}
    {cs content r : List Char} {hr : r.length ≤ cs.length}
    (e1 : hexVal h1 = some a) (e2 : hexVal h2 = some b)
    (e3 : hexVal h3 = some c) (e4 : hexVal h4 = some d)
    (f1 : hexVal g1 = some a2) (f2 : hexVal g2 = some b2)
    (f3 : hexVal g3 = some c2) (f4 : hexVal g4 = some d2)
    (hC1 : ¬ (a * 4096 + b * 256 + c * 16 + d < 0xd800 ∨
      0xe000 ≤ a * 4096 + b * 256 + c * 16 + d))
    (hC2 : a * 4096 + b * 256 + c * 16 + d < 0xdc00)
    (hC3 : 0xdc00 ≤ a2 * 4096 + b2 * 256 + c2 * 16 + d2 ∧
      a2 * 4096 + b2 * 256 + c2 * 16 + d2 < 0xe000)
    (h : lexStrBody cs = some (content, ⟨r, hr⟩)) :
    ∃ hb, lexStrBody ('\\' :: 'u' :: h1 :: h2 :: h3 :: h4 ::
        '\\' :: 'u' :: g1 :: g2 :: g3 :: g4 :: cs) =
      some (Char.ofNat (0x10000 +
          (a * 4096 + b * 256 + c * 16 + d - 0xd800) * 0x400 +
          (a2 * 4096 + b2 * 256 + c2 * 16 + d2 - 0xdc00)) :: content,
        ⟨r, hb⟩) := by
  refine ⟨le_trans hr (by simp; omega), ?_⟩
  simp +decide only [lexStrBody, lexEsc, lexU, readU, e1, e2, e3, e4,
    f1, f2, f3, f4, hC1, hC2, hC3, h, ite_true, ite_false]

/-- Locality of the string-literal scan: a body in the `BodyChars` relation
followed by a closing quote lexes to its decoded content, whatever follows
the quote. -/
theorem lexStrBody_append {content raw : List Char}
    (h : BodyChars content raw) : ∀ X : List Char,
    ∃ hb, lexStrBody (raw ++ '"' :: X) = some (content, ⟨X, hb⟩) := by
  induction h with
  | nil =>
    intro X
    exact ⟨Nat.le_succ _, lexStrBody_quote X⟩
  | plain hq hb2 hge ihb ih =>
    intro X
    obtain ⟨hb3, heq⟩ := ih X
    exact lexStrBody_plain_step hq hb2 (by omega) heq
  | esc hu hdec ihb ih =>
    intro X
    obtain ⟨hb3, heq⟩ := ih X
    exact lexStrBody_esc_step hu hdec heq
  | uesc h1 h2 h3 h4 a b c d e1 e2 e3 e4 hr ihb ih =>
    intro X
    obtain ⟨hb3, heq⟩ := ih X
    exact lexStrBody_uesc_step e1 e2 e3 e4 hr heq
  | upair h1 h2 h3 h4 g1 g2 g3 g4 a b c d a2 b2 c2 d2 e1 e2 e3 e4
      f1 f2 f3 f4 hr1 hr2 hr3 ihb ih =>
    intro X
    obtain ⟨hb3, heq⟩ := ih X
    exact lexStrBody_upair_step e1 e2 e3 e4 f1 f2 f3 f4 hr1 hr2 hr3 heq

/-- Inversion of `readU`: success means four hex digits were consumed. -/
theorem readU_inv {cs : List Char} {n : Nat} {r1 : List Char}
    {h : r1.length + 4 = cs.length}
    (heq : readU cs = some (n, ⟨r1, h⟩)) :
    ∃ h1 h2 h3 h4 a b c d, cs = h1 :: h2 :: h3 :: h4 :: r1 ∧
      hexVal h1 = some a ∧ hexVal h2 = some b ∧ hexVal h3 = some c ∧
      hexVal h4 = some d ∧ n = a * 4096 + b * 256 + c * 16 + d := by
  match cs with
  | [] =>
    simp only [readU] at heq
    exact Option.noConfusion heq
  | [_] =>
    simp only [readU] at heq
    exact Option.noConfusion heq
  | [_, _] =>
    simp only [readU] at heq
    exact Option.noConfusion heq
  | [_, _, _] =>
    simp only [readU] at heq
    exact Option.noConfusion heq
  | h1 :: h2 :: h3 :: h4 :: cs3 =>
    simp only [readU] at heq
    split at heq
    · rename_i a b c d e1 e2 e3 e4
      simp only [Option.some.injEq, Prod.mk.injEq, Subtype.mk.injEq] at heq
      obtain ⟨hn, hr⟩ := heq
      exact ⟨h1, h2, h3, h4, a, b, c, d, by rw [hr], e1, e2, e3, e4, hn.symm⟩
    · exact Option.noConfusion heq

/-- Inversion of the string-literal scan, by strong induction on the input
length: a successful scan splits the input into the raw body, the closing
quote, and the remainder, with the content related to the body by
`BodyChars`. -/
theorem lexStrBody_inv_aux : ∀ (N : Nat) (cs : List Char), cs.length ≤ N →
    ∀ (content r : List Char) (hb : r.length ≤ cs.length),
    lexStrBody cs = some (content, ⟨r, hb⟩) →
    ∃ raw, cs = raw ++ '"' :: r ∧ BodyChars content raw := by
  intro N
  induction N with
  | zero =>
    intro cs hlen content r hb heq
    cases cs with
    | nil =>
      simp only [lexStrBody] at heq
      exact Option.noConfusion heq
    | cons c cs2 =>
      exact absurd hlen (by simp)
  | succ N ih =>
    intro cs hlen content r hb heq
    cases cs with
    | nil =>
      simp only [lexStrBody] at heq
      exact Option.noConfusion heq
    | cons c cs2 =>
      simp only [List.length_cons] at hlen
      by_cases hq : c = '"'
      · subst hq
        rw [lexStrBody_quote] at heq
        simp only [Option.some.injEq, Prod.mk.injEq, Subtype.mk.injEq] at heq
        obtain ⟨hc1, hc2⟩ := heq
        refine ⟨[], by rw [hc2]; rfl, ?_⟩
        rw [← hc1]
        exact BodyChars.nil
      by_cases hbs : c = '\\'
      · subst hbs
        simp +decide only [lexStrBody, ite_true, ite_false] at heq
        split at heq
        · exact Option.noConfusion heq
        rename_i content2 r2 hr2 hesc
        simp only [Option.some.injEq, Prod.mk.injEq, Subtype.mk.injEq] at heq
        obtain ⟨hceq, hreq⟩ := heq
        subst hceq
        subst hreq
        cases cs2 with
        | nil =>
          simp only [lexEsc] at hesc
          exact Option.noConfusion hesc
        | cons e cs3 =>
          simp only [List.length_cons] at hlen
          by_cases hu : e = 'u'
          · subst hu
            simp +decide only [lexEsc, ite_true] at hesc
            split at hesc
            · exact Option.noConfusion hesc
            rename_i content3 r3 hr3 hlexu
            simp only [Option.some.injEq, Prod.mk.injEq,
              Subtype.mk.injEq] at hesc
            obtain ⟨hceq, hreq⟩ := hesc
            subst hceq
            subst hreq
            rw [lexU] at hlexu
            split at hlexu
            · exact Option.noConfusion hlexu
            rename_i n r1s hru
            by_cases hrange : n < 0xd800 ∨ 0xe000 ≤ n
            · rw [if_pos hrange] at hlexu
              split at hlexu
              · exact Option.noConfusion hlexu
              rename_i content4 r4 hr4 hlsb
              simp only [Option.some.injEq, Prod.mk.injEq,
                Subtype.mk.injEq] at hlexu
              obtain ⟨hceq, hreq⟩ := hlexu
              subst hreq
              obtain ⟨r1, hr1p⟩ := r1s
              obtain ⟨d1, d2, d3, d4, a, b, c2, d, hcs3, e1, e2, e3, e4, hn⟩ :=
                readU_inv hru
              have hlr1 : r1.length ≤ N := by
                have := congrArg List.length hcs3
                simp only [List.length_cons] at this
                omega
              obtain ⟨raw1, hr1eq, hbody⟩ :=
                ih r1 hlr1 content4 r4 hr4 hlsb
              refine ⟨'\\' :: 'u' :: d1 :: d2 :: d3 :: d4 :: raw1, ?_, ?_⟩
              · rw [hcs3, hr1eq]
                rfl
              · rw [← hceq, hn]
                exact BodyChars.uesc d1 d2 d3 d4 a b c2 d e1 e2 e3 e4
                  (hn ▸ hrange) hbody
            · rw [if_neg hrange] at hlexu
              by_cases hlow : n < 0xdc00
              · rw [if_pos hlow] at hlexu
                split at hlexu
                · rename_i c3 c4 r2 hr1v
                  by_cases hbu : c3 = '\\' ∧ c4 = 'u'
                  · rw [if_pos hbu] at hlexu
                    split at hlexu
                    · exact Option.noConfusion hlexu
                    rename_i m2 r3s hru2
                    by_cases hm2 : 0xdc00 ≤ m2 ∧ m2 < 0xe000
                    · rw [if_pos hm2] at hlexu
                      split at hlexu
                      · exact Option.noConfusion hlexu
                      rename_i content4 r4 hr4 hlsb
                      simp only [Option.some.injEq, Prod.mk.injEq,
                        Subtype.mk.injEq] at hlexu
                      obtain ⟨hceq, hreq⟩ := hlexu
                      subst hreq
                      obtain ⟨r3, hr3p⟩ := r3s
                      obtain ⟨g1, g2, g3, g4, a2, b2, c5, d5, hr2eq,
                        f1, f2, f3, f4, hm⟩ := readU_inv hru2
                      obtain ⟨r1, hr1p⟩ := r1s
                      obtain ⟨d1, d2, d3, d4, a, b, c6, d6, hcs3,
                        e1, e2, e3, e4, hn⟩ := readU_inv hru
                      have hlr3 : r3.length ≤ N := by
                        have h1 := congrArg List.length hcs3
                        have h2 := congrArg List.length hr1v
                        have h3 := congrArg List.length hr2eq
                        simp only [List.length_cons] at h1 h2 h3
                        omega
                      obtain ⟨raw1, hr3eq, hbody⟩ :=
                        ih r3 hlr3 content4 r4 hr4 hlsb
                      obtain ⟨hc3, hc4⟩ := hbu
                      subst hc3
                      subst hc4
                      refine ⟨'\\' :: 'u' :: d1 :: d2 :: d3 :: d4 ::
                        '\\' :: 'u' :: g1 :: g2 :: g3 :: g4 :: raw1, ?_, ?_⟩
                      · have hr1v2 : r1 = '\\' :: 'u' :: r2 := hr1v
                        rw [hcs3]
                        simp only [List.cons_append]
                        rw [hr1v2, hr2eq, hr3eq]
                      · rw [← hceq, hn, hm]
                        exact BodyChars.upair d1 d2 d3 d4 g1 g2 g3 g4
                          a b c6 d6 a2 b2 c5 d5 e1 e2 e3 e4 f1 f2 f3 f4
                          (hn ▸ hrange) (hn ▸ hlow) (hm ▸ hm2) hbody
                    · rw [if_neg hm2] at hlexu
                      exact Option.noConfusion hlexu
                  · rw [if_neg hbu] at hlexu
                    exact Option.noConfusion hlexu
                · exact Option.noConfusion hlexu
              · rw [if_neg hlow] at hlexu
                exact Option.noConfusion hlexu
          · simp only [lexEsc, if_neg hu] at hesc
            split at hesc
            · exact Option.noConfusion hesc
            rename_i c2 hdec
            split at hesc
            · exact Option.noConfusion hesc
            rename_i content3 r3 hr3 hlsb
            simp only [Option.some.injEq, Prod.mk.injEq,
              Subtype.mk.injEq] at hesc
            obtain ⟨hceq, hreq⟩ := hesc
            subst hreq
            obtain ⟨raw1, hr1eq, hbody⟩ :=
              ih cs3 (by omega) content3 r3 hr3 hlsb
            refine ⟨'\\' :: e :: raw1, ?_, ?_⟩
            · rw [hr1eq]
              rfl
            · rw [← hceq]
              exact BodyChars.esc hu hdec hbody
      · simp only [lexStrBody, if_neg hq, if_neg hbs] at heq
        by_cases hctl : c.toNat < 0x20
        · rw [if_pos hctl] at heq
          exact Option.noConfusion heq
        · rw [if_neg hctl] at heq
          split at heq
          · exact Option.noConfusion heq
          rename_i content2 r2 hr2 hlsb
          simp only [Option.some.injEq, Prod.mk.injEq,
            Subtype.mk.injEq] at heq
          obtain ⟨hceq, hreq⟩ := heq
          subst hreq
          obtain ⟨raw1, hr1eq, hbody⟩ :=
            ih cs2 (by omega) content2 r2 hr2 hlsb
          refine ⟨c :: raw1, ?_, ?_⟩
          · rw [hr1eq]
            rfl
          · rw [← hceq]
            exact BodyChars.plain hq hbs (by omega) hbody

/-- Inversion of the string-literal scan. -/
theorem lexStrBody_inv {cs content r : List Char} {hb : r.length ≤ cs.length}
    (heq : lexStrBody cs = some (content, ⟨r, hb⟩)) :
    ∃ raw, cs = raw ++ '"' :: r ∧ BodyChars content raw :=
  lexStrBody_inv_aux cs.length cs le_rfl content r hb heq

/-! ## Serialization round-trip: token layer -/

/-- Whitespace is skipped by the tokenizer. -/
theorem lexToks_ws {c : Char} (h : isWS c = true) (x : List Char) :
    lexToks (c :: x) = lexToks x := by
  simp only [lexToks, h, ite_true]

/-- A run of whitespace is skipped by the tokenizer. -/
theorem lexToks_ws_append {u : List Char} (h : ∀ c ∈ u, isWS c = true)
    (x : List Char) : lexToks (u ++ x) = lexToks x := by
  induction u with
  | nil => rfl
  | cons c u ih =>
    rw [List.cons_append, lexToks_ws (h c (List.mem_cons_self c u))]
    exact ih (fun c2 hm => h c2 (List.mem_cons_of_mem c hm))

/-- Every character of an indentation run is whitespace. -/
theorem ws_sp (n : Nat) : ∀ c ∈ sp n, isWS c = true := by
  intro c hm
  rw [(List.mem_replicate.mp hm).2]
  decide

/-- A punctuation character lexes to its token and the scan continues. -/
theorem lexToks_tok {c : Char} {t : Tok} (h : tokOf c = some t)
    (x : List Char) : lexToks (c :: x) = Option.map (t :: ·) (lexToks x) := by
  simp only [tokOf] at h
  split_ifs at h with h1 h2 h3 h4 h5 h6
  · subst h1
    injection h with ht
    subst ht
    cases hx : lexToks x <;>
      simp +decide only [lexToks, hx, ite_true, ite_false,
        Option.map_none', Option.map_some']
  · subst h2
    injection h with ht
    subst ht
    cases hx : lexToks x <;>
      simp +decide only [lexToks, hx, ite_true, ite_false,
        Option.map_none', Option.map_some']
  · subst h3
    injection h with ht
    subst ht
    cases hx : lexToks x <;>
      simp +decide only [lexToks, hx, ite_true, ite_false,
        Option.map_none', Option.map_some']
  · subst h4
    injection h with ht
    subst ht
    cases hx : lexToks x <;>
      simp +decide only [lexToks, hx, ite_true, ite_false,
        Option.map_none', Option.map_some']
  · subst h5
    injection h with ht
    subst ht
    cases hx : lexToks x <;>
      simp +decide only [lexToks, hx, ite_true, ite_false,
        Option.map_none', Option.map_some']
  · subst h6
    injection h with ht
    subst ht
    cases hx : lexToks x <;>
      simp +decide only [lexToks, hx, ite_true, ite_false,
        Option.map_none', Option.map_some']

/-- A string literal lexes to its decoded-content token and the scan
continues after the closing quote. -/
theorem lexToks_quote_step {cs content r : List Char}
    {hr : r.length ≤ cs.length}
    (h : lexStrBody cs = some (content, ⟨r, hr⟩)) :
    lexToks ('"' :: cs) =
      Option.map (Tok.tstr (String.mk content) :: ·) (lexToks r) := by
  cases hx : lexToks r <;>
    simp +decide only [lexToks, h, hx, ite_true, ite_false,
      Option.map_none', Option.map_some']

/-- A dumped string literal lexes to one string token. -/
theorem lex_dumpStr (s : String) (X : List Char) :
    lexToks (dumpStr s ++ X) = Option.map (fun ts => Tok.tstr s :: ts) (lexToks X) := by
  obtain ⟨hb, heq⟩ := lexStrBody_append (escape_body s.data) X
  have hda : dumpStr s ++ X =
      '"' :: (s.data.flatMap escapeChar ++ '"' :: X) := by
    simp [dumpStr]
  rw [hda, lexToks_quote_step heq]

mutual

/-- Lexing a serialized value prepends its token stream, whatever
follows. -/
theorem lex_dumpVal : ∀ (ind : Nat) (j : Json) (X : List Char),
    lexToks (dumpVal ind j ++ X) =
      Option.map (fun ts => toksVal j ++ ts) (lexToks X)
  | ind, Json.str s, X => by
    rw [show dumpVal ind (Json.str s) = dumpStr s from by
      simp only [dumpVal]]
    rw [lex_dumpStr]
    cases hx : lexToks X <;> simp [toksVal]
  | ind, Json.arr [], X => by
    rw [show dumpVal ind (Json.arr []) ++ X = '[' :: (']' :: X) from by
      simp only [dumpVal]
      rfl]
    rw [lexToks_tok (by decide : tokOf '[' = some Tok.lbrack),
      lexToks_tok (by decide : tokOf ']' = some Tok.rbrack)]
    cases hx : lexToks X <;> simp [toksVal]
  | ind, Json.arr (j2 :: l2), X => by
    have hrec := lex_dumpArr ind j2 l2 ('\n' :: (sp ind ++ (']' :: X)))
    rw [show dumpVal ind (Json.arr (j2 :: l2)) ++ X =
        '[' :: ('\n' :: (dumpArrItems ind j2 l2 ++
          ('\n' :: (sp ind ++ (']' :: X))))) from by
      simp only [dumpVal]
      simp]
    rw [lexToks_tok (by decide : tokOf '[' = some Tok.lbrack),
      lexToks_ws (by decide), hrec, lexToks_ws (by decide),
      lexToks_ws_append (ws_sp ind),
      lexToks_tok (by decide : tokOf ']' = some Tok.rbrack)]
    cases hx : lexToks X <;> simp [toksVal]
  | ind, Json.obj [], X => by
    rw [show dumpVal ind (Json.obj []) ++ X = '{' :: ('}' :: X) from by
      simp only [dumpVal]
      rfl]
    rw [lexToks_tok (by decide : tokOf '{' = some Tok.lbrace),
      lexToks_tok (by decide : tokOf '}' = some Tok.rbrace)]
    cases hx : lexToks X <;> simp [toksVal]
  | ind, Json.obj (e :: m2), X => by
    have hrec := lex_dumpObj ind e m2 ('\n' :: (sp ind ++ ('}' :: X)))
    rw [show dumpVal ind (Json.obj (e :: m2)) ++ X =
        '{' :: ('\n' :: (dumpObjItems ind e m2 ++
          ('\n' :: (sp ind ++ ('}' :: X))))) from by
      simp only [dumpVal]
      simp]
    rw [lexToks_tok (by decide : tokOf '{' = some Tok.lbrace),
      lexToks_ws (by decide), hrec, lexToks_ws (by decide),
      lexToks_ws_append (ws_sp ind),
      lexToks_tok (by decide : tokOf '}' = some Tok.rbrace)]
    cases hx : lexToks X <;> simp [toksVal]
termination_by ind j X => sizeOf j
decreasing_by all_goals (simp <;> omega)

/-- Lexing serialized array items prepends their token stream. -/
theorem lex_dumpArr : ∀ (ind : Nat) (j : Json) (l : List Json)
    (X : List Char),
    lexToks (dumpArrItems ind j l ++ X) =
      Option.map (fun ts => toksArr j l ++ ts) (lexToks X)
  | ind, j, [], X => by
    have hrec := lex_dumpVal (ind + 2) j X
    rw [show dumpArrItems ind j [] ++ X =
        sp (ind + 2) ++ (dumpVal (ind + 2) j ++ X) from by
      simp only [dumpArrItems]
      simp]
    rw [lexToks_ws_append (ws_sp (ind + 2)), hrec]
    cases hx : lexToks X <;> simp [toksArr]
  | ind, j, j2 :: l2, X => by
    have hrec1 := lex_dumpVal (ind + 2) j
      (',' :: ('\n' :: (dumpArrItems ind j2 l2 ++ X)))
    have hrec2 := lex_dumpArr ind j2 l2 X
    rw [show dumpArrItems ind j (j2 :: l2) ++ X =
        sp (ind + 2) ++ (dumpVal (ind + 2) j ++
          (',' :: ('\n' :: (dumpArrItems ind j2 l2 ++ X)))) from by
      simp only [dumpArrItems]
      simp]
    rw [lexToks_ws_append (ws_sp (ind + 2)), hrec1,
      lexToks_tok (by decide : tokOf ',' = some Tok.comma),
      lexToks_ws (by decide), hrec2]
    cases hx : lexToks X <;> simp [toksArr]
termination_by ind j l X => sizeOf j + sizeOf l
decreasing_by all_goals (simp <;> omega)

/-- Lexing serialized object items prepends their token stream. -/
theorem lex_dumpObj : ∀ (ind : Nat) (e : String × Json)
    (m : List (String × Json)) (X : List Char),
    lexToks (dumpObjItems ind e m ++ X) =
      Option.map (fun ts => toksObj e m ++ ts) (lexToks X)
  | ind, e, [], X => by
    have hrec := lex_dumpVal (ind + 2) e.2 X
    rw [show dumpObjItems ind e [] ++ X =
        sp (ind + 2) ++ (dumpStr e.1 ++
          (':' :: (' ' :: (dumpVal (ind + 2) e.2 ++ X)))) from by
      simp only [dumpObjItems]
      simp]
    rw [lexToks_ws_append (ws_sp (ind + 2)), lex_dumpStr,
      lexToks_tok (by decide : tokOf ':' = some Tok.colon),
      lexToks_ws (by decide), hrec]
    cases hx : lexToks X <;> simp [toksObj]
  | ind, e, e2 :: m2, X => by
    have hrec1 := lex_dumpVal (ind + 2) e.2
      (',' :: ('\n' :: (dumpObjItems ind e2 m2 ++ X)))
    have hrec2 := lex_dumpObj ind e2 m2 X
    rw [show dumpObjItems ind e (e2 :: m2) ++ X =
        sp (ind + 2) ++ (dumpStr e.1 ++
          (':' :: (' ' :: (dumpVal (ind + 2) e.2 ++
            (',' :: ('\n' :: (dumpObjItems ind e2 m2 ++ X))))))) from by
      simp only [dumpObjItems]
      simp]
    rw [lexToks_ws_append (ws_sp (ind + 2)), lex_dumpStr,
      lexToks_tok (by decide : tokOf ':' = some Tok.colon),
      lexToks_ws (by decide), hrec1,
      lexToks_tok (by decide : tokOf ',' = some Tok.comma),
      lexToks_ws (by decide), hrec2]
    cases hx : lexToks X <;> simp [toksObj]
termination_by ind e m X => sizeOf e + sizeOf m
decreasing_by all_goals (first
  | (simp <;> omega)
  | (cases e <;> simp <;> omega))

end

/-- The serialized document lexes to the canonical value's token stream. -/
theorem lexToks_serialize (j : Json) :
    lexToks (serializeJson j) = some (toksVal (canon j)) := by
  have h := lex_dumpVal 0 (canon j) []
  rw [List.append_nil] at h
  rw [serializeJson, h, show lexToks [] = some [] from by
    simp only [lexToks]]
  simp

/-- A value's token stream never starts with a closing bracket or brace. -/
theorem toksVal_head_ne : ∀ (j : Json) (z : List Tok),
    ((toksVal j ++ z).head? = some Tok.rbrack → False) ∧
    ((toksVal j ++ z).head? = some Tok.rbrace → False) := by
  intro j z
  match j with
  | Json.str s => constructor <;> (intro h; simp [toksVal] at h)
  | Json.arr [] => constructor <;> (intro h; simp [toksVal] at h)
  | Json.arr (j2 :: l2) => constructor <;> (intro h; simp [toksVal] at h)
  | Json.obj [] => constructor <;> (intro h; simp [toksVal] at h)
  | Json.obj (e :: m2) => constructor <;> (intro h; simp [toksVal] at h)

/-- A value's token stream is non-empty. -/
theorem toksVal_length_pos : ∀ j : Json, 0 < (toksVal j).length := by
  intro j
  match j with
  | Json.str s => simp [toksVal]
  | Json.arr [] => simp [toksVal]
  | Json.arr (j2 :: l2) => simp [toksVal]
  | Json.obj [] => simp [toksVal]
  | Json.obj (e :: m2) => simp [toksVal]

/-- An array-items token stream never starts with a closing bracket. -/
theorem toksArr_head_ne (j : Json) (l : List Json) (z : List Tok) :
    ¬ (toksArr j l ++ z).head? = some Tok.rbrack := by
  rw [toksArr.eq_def, List.append_assoc]
  exact (toksVal_head_ne j _).1

/-- An object-items token stream never starts with a closing brace. -/
theorem toksObj_head_ne (e : String × Json) (m : List (String × Json))
    (z : List Tok) : ¬ (toksObj e m ++ z).head? = some Tok.rbrace := by
  rw [toksObj.eq_def]
  simp

mutual

/-- Parsing a value's token stream yields the value and the remainder. -/
theorem parse_toksVal : ∀ (j : Json) (rest : List Tok),
    ∃ hb, parseVal (toksVal j ++ rest) = some (j, ⟨rest, hb⟩)
  | Json.str s, rest => by
    rw [show toksVal (Json.str s) ++ rest = Tok.tstr s :: rest from by
      simp [toksVal]]
    refine ⟨by simp only [List.length_cons]; omega, ?_⟩
    simp only [parseVal]
  | Json.arr [], rest => by
    rw [show toksVal (Json.arr []) ++ rest =
        Tok.lbrack :: (Tok.rbrack :: rest) from by simp [toksVal]]
    refine ⟨by simp only [List.length_cons]; omega, ?_⟩
    simp only [parseVal, List.head?_cons, List.tail_cons, ite_true]
  | Json.arr (j2 :: l2), rest => by
    obtain ⟨hb1, heq⟩ := parse_toksArr j2 l2 rest
    rw [show toksVal (Json.arr (j2 :: l2)) ++ rest =
        Tok.lbrack :: (toksArr j2 l2 ++ Tok.rbrack :: rest) from by
      simp [toksVal]]
    refine ⟨by
      simp only [List.length_cons, List.length_append]
      omega, ?_⟩
    simp only [parseVal]
    rw [if_neg (toksArr_head_ne j2 l2 _)]
    simp only [heq]
  | Json.obj [], rest => by
    rw [show toksVal (Json.obj []) ++ rest =
        Tok.lbrace :: (Tok.rbrace :: rest) from by simp [toksVal]]
    refine ⟨by simp only [List.length_cons]; omega, ?_⟩
    simp only [parseVal, List.head?_cons, List.tail_cons, ite_true]
  | Json.obj (e :: m2), rest => by
    obtain ⟨hb1, heq⟩ := parse_toksObj e m2 rest
    rw [show toksVal (Json.obj (e :: m2)) ++ rest =
        Tok.lbrace :: (toksObj e m2 ++ Tok.rbrace :: rest) from by
      simp [toksVal]]
    refine ⟨by
      simp only [List.length_cons, List.length_append]
      omega, ?_⟩
    simp only [parseVal]
    rw [if_neg (toksObj_head_ne e m2 _)]
    simp only [heq]
termination_by j rest => sizeOf j
decreasing_by all_goals (simp <;> omega)

/-- Parsing array items followed by a closing bracket yields the items. -/
theorem parse_toksArr : ∀ (j : Json) (l : List Json) (rest : List Tok),
    ∃ hb, parseArrItems (toksArr j l ++ Tok.rbrack :: rest) =
      some (j :: l, ⟨rest, hb⟩)
  | j, [], rest => by
    obtain ⟨hb1, heq⟩ := parse_toksVal j (Tok.rbrack :: rest)
    rw [show toksArr j [] ++ Tok.rbrack :: rest =
        toksVal j ++ (Tok.rbrack :: rest) from by simp [toksArr]]
    refine ⟨by
      simp only [List.length_cons, List.length_append]
      omega, ?_⟩
    simp only [parseArrItems, heq]
  | j, j2 :: l2, rest => by
    obtain ⟨hb1, heq1⟩ :=
      parse_toksVal j (Tok.comma :: (toksArr j2 l2 ++ Tok.rbrack :: rest))
    obtain ⟨hb2, heq2⟩ := parse_toksArr j2 l2 rest
    rw [show toksArr j (j2 :: l2) ++ Tok.rbrack :: rest =
        toksVal j ++ (Tok.comma :: (toksArr j2 l2 ++ Tok.rbrack :: rest))
        from by simp [toksArr]]
    refine ⟨by
      simp only [List.length_cons, List.length_append]
      omega, ?_⟩
    simp only [parseArrItems, heq1, heq2]
termination_by j l rest => sizeOf j + sizeOf l
decreasing_by all_goals (simp <;> omega)

/-- Parsing object items followed by a closing brace yields the entries. -/
theorem parse_toksObj : ∀ (e : String × Json) (m : List (String × Json))
    (rest : List Tok),
    ∃ hb, parseObjItems (toksObj e m ++ Tok.rbrace :: rest) =
      some (e :: m, ⟨rest, hb⟩)
  | e, [], rest => by
    obtain ⟨hb1, heq⟩ := parse_toksVal e.2 (Tok.rbrace :: rest)
    rw [show toksObj e [] ++ Tok.rbrace :: rest =
        Tok.tstr e.1 :: Tok.colon :: (toksVal e.2 ++ (Tok.rbrace :: rest))
        from by simp [toksObj]]
    refine ⟨by
      simp only [List.length_cons, List.length_append]
      omega, ?_⟩
    simp only [parseObjItems, heq]
  | e, e2 :: m2, rest => by
    obtain ⟨hb1, heq1⟩ :=
      parse_toksVal e.2 (Tok.comma :: (toksObj e2 m2 ++ Tok.rbrace :: rest))
    obtain ⟨hb2, heq2⟩ := parse_toksObj e2 m2 rest
    rw [show toksObj e (e2 :: m2) ++ Tok.rbrace :: rest =
        Tok.tstr e.1 :: Tok.colon :: (toksVal e.2 ++
          (Tok.comma :: (toksObj e2 m2 ++ Tok.rbrace :: rest)))
        from by simp [toksObj]]
    refine ⟨by
      simp only [List.length_cons, List.length_append]
      omega, ?_⟩
    simp only [parseObjItems, heq1, heq2]
termination_by e m rest => sizeOf e + sizeOf m
decreasing_by all_goals (first
  | (simp <;> omega)
  | (cases e <;> simp <;> omega))

end

/-- Parsing exactly a value's token stream consumes the whole stream. -/
theorem parse_toksVal_nil (j : Json) :
    ∃ hb, parseVal (toksVal j) = some (j, ⟨[], hb⟩) := by
  rw [show toksVal j = toksVal j ++ [] from (List.append_nil _).symm]
  exact parse_toksVal j []

/-- Parsing the serialized document recovers the canonical value. -/
theorem parseJson_serialize (j : Json) :
    parseJson (serializeJson j) = some (canon j) := by
  obtain ⟨hb, hp⟩ := parse_toksVal_nil (canon j)
  simp only [parseJson, lexToks_serialize, hp]

/-! ## Serialization round-trip: the compaction replacements -/

/-- A character that is neither whitespace, a quote, nor punctuation makes
the tokenizer fail. -/
theorem lexToks_fail {c : Char} (h0 : isWS c = false) (hq : c ≠ '"')
    (h : tokOf c = none) (x : List Char) : lexToks (c :: x) = none := by
  simp only [tokOf] at h
  split_ifs at h with h1 h2 h3 h4 h5 h6
  simp +decide only [lexToks, h0, if_neg h1, if_neg h2, if_neg h3,
    if_neg h4, if_neg h5, if_neg h6, if_neg hq, ite_false]

/-- Inversion of the tokenizer at an opening quote. -/
theorem lexToks_quote_inv {cs : List Char} {ts : List Tok}
    (h : lexToks ('"' :: cs) = some ts) :
    ∃ content r hr ts2, lexStrBody cs = some (content, ⟨r, hr⟩) ∧
      lexToks r = some ts2 ∧ ts = Tok.tstr (String.mk content) :: ts2 := by
  simp +decide only [lexToks, ite_true, ite_false] at h
  split at h
  · exact Option.noConfusion h
  rename_i content r hr hsb
  split at h
  · exact Option.noConfusion h
  rename_i ts2 hts2
  simp only [Option.some.injEq] at h
  exact ⟨content, r, hr, ts2, hsb, hts2, h.symm⟩

/-- No occurrence of a pattern `a :: '\n' :: w` starts inside a
newline-free block `x`, provided a match cannot start at the block's last
character. -/
theorem no_match_in (a : Char) (w : List Char) :
    ∀ (x y : List Char), '\n' ∉ x →
    (x.getLast? = some a → ¬ ('\n' :: w).isPrefixOf y = true) →
    ∀ i, i < x.length → ¬ (a :: '\n' :: w).isPrefixOf (x.drop i ++ y) = true := by
  intro x
  induction x with
  | nil =>
    intro y hnl hlast i hi
    simp at hi
  | cons c x ih =>
    intro y hnl hlast i hi
    match i with
    | 0 =>
      intro hpre
      rw [List.drop_zero, List.cons_append,
        List.isPrefixOf_iff_prefix] at hpre
      obtain ⟨hac, hpre2⟩ := List.cons_prefix_cons.mp hpre
      cases x with
      | nil =>
        have hl : ([c] : List Char).getLast? = some a := by
          rw [← hac]
          rfl
        refine hlast hl ?_
        rw [List.isPrefixOf_iff_prefix]
        simpa using hpre2
      | cons c2 x2 =>
        rw [List.cons_append] at hpre2
        have hc2 := (List.cons_prefix_cons.mp hpre2).1
        refine hnl ?_
        rw [hc2]
        exact List.mem_cons_of_mem c (List.mem_cons_self c2 x2)
    | i2 + 1 =>
      simp only [List.length_cons] at hi
      cases x with
      | nil => exact absurd hi (by simp)
      | cons c2 x2 =>
        have hlast2 : (c2 :: x2).getLast? = some a →
            ¬ ('\n' :: w).isPrefixOf y = true := by
          intro hg
          exact hlast (by rw [List.getLast?_cons_cons]; exact hg)
        exact ih y (fun hm => hnl (List.mem_cons_of_mem c hm)) hlast2
          i2 (by simpa using hi)

/-- The replacement scan copies a block in which no match starts. -/
theorem replaceAllAux_copy (p0 : Char) (pr repl : List Char) :
    ∀ (x y : List Char),
    (∀ i, i < x.length → ¬ (p0 :: pr).isPrefixOf (x.drop i ++ y) = true) →
    replaceAllAux p0 pr repl (x ++ y) = x ++ replaceAllAux p0 pr repl y := by
  intro x
  induction x with
  | nil =>
    intro y h
    simp
  | cons c x ih =>
    intro y h
    have h0 := h 0 (by simp)
    rw [List.drop_zero] at h0
    rw [List.cons_append]
    rw [show replaceAllAux p0 pr repl (c :: (x ++ y)) =
        if (p0 :: pr).isPrefixOf (c :: (x ++ y)) then
          repl ++ replaceAllAux p0 pr repl ((x ++ y).drop pr.length)
        else c :: replaceAllAux p0 pr repl (x ++ y) from by
      simp only [replaceAllAux]]
    rw [if_neg (by rw [← List.cons_append]; exact h0)]
    rw [ih y (fun i hi => by
      have := h (i + 1) (by simp only [List.length_cons]; omega)
      rwa [List.drop_succ_cons] at this)]
    rfl

/-- The compaction patterns headed by a punctuation character (`[` and `,`)
only rewrite inter-token whitespace: replacing `a + newline + spaces` by
`a + space` preserves the token stream of any lexable text. -/
theorem replace_punct_pres (a : Char) (w : List Char)
    (hws : ∀ c ∈ w, isWS c = true) (ha1 : isWS a = false) (ha2 : a ≠ '"') :
    ∀ (N : Nat) (s : List Char), s.length ≤ N → ∀ ts, lexToks s = some ts →
    lexToks (replaceAllAux a ('\n' :: w) [a, ' '] s) = some ts := by
  have hwall : ∀ c ∈ '\n' :: w, isWS c = true := by
    intro c hm
    rcases List.mem_cons.mp hm with he | hm2
    · rw [he]
      decide
    · exact hws c hm2
  intro N
  induction N with
  | zero =>
    intro s hlen ts hlex
    cases s with
    | nil =>
      simpa only [replaceAllAux] using hlex
    | cons c cs =>
      exact absurd hlen (by simp)
  | succ N ih =>
    intro s hlen ts hlex
    cases s with
    | nil =>
      simpa only [replaceAllAux] using hlex
    | cons c cs =>
      simp only [List.length_cons] at hlen
      by_cases hcw : isWS c = true
      · have hne : ¬ (a :: '\n' :: w).isPrefixOf (c :: cs) = true := by
          intro hp
          have hac :=
            (List.cons_prefix_cons.mp (List.isPrefixOf_iff_prefix.mp hp)).1
          rw [hac, hcw] at ha1
          exact Bool.noConfusion ha1
        rw [show replaceAllAux a ('\n' :: w) [a, ' '] (c :: cs) =
            if (a :: '\n' :: w).isPrefixOf (c :: cs) then
              [a, ' '] ++ replaceAllAux a ('\n' :: w) [a, ' ']
                (cs.drop ('\n' :: w).length)
            else c :: replaceAllAux a ('\n' :: w) [a, ' '] cs from by
          simp only [replaceAllAux]]
        rw [if_neg hne, lexToks_ws hcw]
        rw [lexToks_ws hcw] at hlex
        exact ih cs (by omega) ts hlex
      · by_cases hcq : c = '"'
        · subst hcq
          have hne2 : ¬ (a :: '\n' :: w).isPrefixOf ('"' :: cs) = true := by
            intro hp
            exact ha2
              (List.cons_prefix_cons.mp (List.isPrefixOf_iff_prefix.mp hp)).1
          obtain ⟨content, r, hr, ts2, hsb, hlexr, hts⟩ :=
            lexToks_quote_inv hlex
          obtain ⟨raw, hcs, hbody⟩ := lexStrBody_inv hsb
          have hnl := bodyChars_no_nl hbody
          have hcopy := replaceAllAux_copy a ('\n' :: w) [a, ' ']
            raw ('"' :: r)
            (no_match_in a w raw ('"' :: r) hnl (by
              intro hg hp
              have := (List.cons_prefix_cons.mp
                (List.isPrefixOf_iff_prefix.mp hp)).1
              exact absurd this (by decide)))
          have hne3 : ¬ (a :: '\n' :: w).isPrefixOf ('"' :: r) = true := by
            intro hp
            exact ha2
              (List.cons_prefix_cons.mp (List.isPrefixOf_iff_prefix.mp hp)).1
          rw [show replaceAllAux a ('\n' :: w) [a, ' '] ('"' :: cs) =
              if (a :: '\n' :: w).isPrefixOf ('"' :: cs) then
                [a, ' '] ++ replaceAllAux a ('\n' :: w) [a, ' ']
                  (cs.drop ('\n' :: w).length)
              else '"' :: replaceAllAux a ('\n' :: w) [a, ' '] cs from by
            simp only [replaceAllAux]]
          rw [if_neg hne2, hcs, hcopy]
          rw [show replaceAllAux a ('\n' :: w) [a, ' '] ('"' :: r) =
              if (a :: '\n' :: w).isPrefixOf ('"' :: r) then
                [a, ' '] ++ replaceAllAux a ('\n' :: w) [a, ' ']
                  (r.drop ('\n' :: w).length)
              else '"' :: replaceAllAux a ('\n' :: w) [a, ' '] r from by
            simp only [replaceAllAux]]
          rw [if_neg hne3]
          obtain ⟨hb2, happ⟩ :=
            lexStrBody_append hbody (replaceAllAux a ('\n' :: w) [a, ' '] r)
          rw [show ('"' :: (raw ++ '"' ::
              replaceAllAux a ('\n' :: w) [a, ' '] r)) =
              '"' :: (raw ++ '"' ::
                replaceAllAux a ('\n' :: w) [a, ' '] r) from rfl]
          rw [lexToks_quote_step happ]
          have hlr : r.length ≤ N := by
            have := congrArg List.length hcs
            simp only [List.length_append, List.length_cons] at this
            omega
          rw [ih r hlr ts2 hlexr, hts]
          rfl
        · by_cases hm : (a :: '\n' :: w).isPrefixOf (c :: cs) = true
          · obtain ⟨hac, hpre2⟩ :=
              List.cons_prefix_cons.mp (List.isPrefixOf_iff_prefix.mp hm)
            obtain ⟨cs2, hcs2⟩ := hpre2
            rw [show replaceAllAux a ('\n' :: w) [a, ' '] (c :: cs) =
                if (a :: '\n' :: w).isPrefixOf (c :: cs) then
                  [a, ' '] ++ replaceAllAux a ('\n' :: w) [a, ' ']
                    (cs.drop ('\n' :: w).length)
                else c :: replaceAllAux a ('\n' :: w) [a, ' '] cs from by
              simp only [replaceAllAux]]
            rw [if_pos hm]
            have hdrop : cs.drop ('\n' :: w).length = cs2 := by
              rw [← hcs2]
              exact List.drop_left _ _
            rw [hdrop]
            subst hac
            cases hta : tokOf a with
            | none =>
              rw [lexToks_fail (by rwa [Bool.not_eq_true] at hcw) hcq hta]
                at hlex
              exact Option.noConfusion hlex
            | some t =>
              rw [lexToks_tok hta] at hlex
              rw [← hcs2, lexToks_ws_append hwall] at hlex
              cases hlc : lexToks cs2 with
              | none =>
                rw [hlc] at hlex
                exact Option.noConfusion hlex
              | some ts2 =>
                rw [hlc, Option.map_some'] at hlex
                have hlen2 : cs2.length ≤ N := by
                  have := congrArg List.length hcs2
                  simp only [List.length_append, List.length_cons] at this
                  omega
                rw [show ([a, ' '] ++
                    replaceAllAux a ('\n' :: w) [a, ' '] cs2) =
                    a :: (' ' :: replaceAllAux a ('\n' :: w) [a, ' '] cs2)
                    from rfl]
                rw [lexToks_tok hta, lexToks_ws (by decide),
                  ih cs2 hlen2 ts2 hlc, Option.map_some']
                exact hlex
          · rw [show replaceAllAux a ('\n' :: w) [a, ' '] (c :: cs) =
                if (a :: '\n' :: w).isPrefixOf (c :: cs) then
                  [a, ' '] ++ replaceAllAux a ('\n' :: w) [a, ' ']
                    (cs.drop ('\n' :: w).length)
                else c :: replaceAllAux a ('\n' :: w) [a, ' '] cs from by
              simp only [replaceAllAux]]
            rw [if_neg hm]
            cases hta : tokOf c with
            | none =>
              rw [lexToks_fail (by rwa [Bool.not_eq_true] at hcw) hcq hta]
                at hlex
              exact Option.noConfusion hlex
            | some t =>
              rw [lexToks_tok hta] at hlex
              rw [lexToks_tok hta]
              cases hlc : lexToks cs with
              | none =>
                rw [hlc] at hlex
                exact Option.noConfusion hlex
              | some ts2 =>
                rw [hlc, Option.map_some'] at hlex
                rw [ih cs (by omega) ts2 hlc, Option.map_some']
                exact hlex

/-- The compaction pattern headed by a quote (`" + newline + spaces + ]`)
only rewrites the whitespace between a literal's closing quote and a
closing bracket: the replacement preserves the token stream of any lexable
text. -/
theorem replace_quote_pres :
    ∀ (N : Nat) (s : List Char), s.length ≤ N → ∀ ts, lexToks s = some ts →
    lexToks (replaceAllAux '"' ('\n' :: (sp 8 ++ [']'])) ['"', ' ', ']'] s)
      = some ts := by
  intro N
  induction N with
  | zero =>
    intro s hlen ts hlex
    cases s with
    | nil =>
      simpa only [replaceAllAux] using hlex
    | cons c cs =>
      exact absurd hlen (by simp)
  | succ N ih =>
    intro s hlen ts hlex
    cases s with
    | nil =>
      simpa only [replaceAllAux] using hlex
    | cons c cs =>
      simp only [List.length_cons] at hlen
      by_cases hcq : c = '"'
      · subst hcq
        obtain ⟨content, r, hr, ts2, hsb, hlexr, hts⟩ :=
          lexToks_quote_inv hlex
        obtain ⟨raw, hcs, hbody⟩ := lexStrBody_inv hsb
        have hnl := bodyChars_no_nl hbody
        have hne2 : ¬ ('"' :: '\n' :: (sp 8 ++ [']'])).isPrefixOf
            ('"' :: cs) = true := by
          intro hp
          have hpre2 := (List.cons_prefix_cons.mp
            (List.isPrefixOf_iff_prefix.mp hp)).2
          rw [hcs] at hpre2
          cases raw with
          | nil =>
            have := (List.cons_prefix_cons.mp hpre2).1
            exact absurd this (by decide)
          | cons c2 raw2 =>
            rw [List.cons_append] at hpre2
            have hc2 := (List.cons_prefix_cons.mp hpre2).1
            exact hnl (by rw [hc2]; exact List.mem_cons_self c2 raw2)
        have hcopy := replaceAllAux_copy '"' ('\n' :: (sp 8 ++ [']']))
          ['"', ' ', ']'] raw ('"' :: r)
          (no_match_in '"' (sp 8 ++ [']']) raw ('"' :: r) hnl (by
            intro hg hp
            have := (List.cons_prefix_cons.mp
              (List.isPrefixOf_iff_prefix.mp hp)).1
            exact absurd this (by decide)))
        rw [show replaceAllAux '"' ('\n' :: (sp 8 ++ [']'])) ['"', ' ', ']']
            ('"' :: cs) =
            if ('"' :: '\n' :: (sp 8 ++ [']'])).isPrefixOf ('"' :: cs) then
              ['"', ' ', ']'] ++ replaceAllAux '"' ('\n' :: (sp 8 ++ [']']))
                ['"', ' ', ']'] (cs.drop ('\n' :: (sp 8 ++ [']'])).length)
            else '"' :: replaceAllAux '"' ('\n' :: (sp 8 ++ [']']))
              ['"', ' ', ']'] cs from by
          simp only [replaceAllAux]]
        rw [if_neg hne2, hcs, hcopy]
        have hlr : r.length ≤ N := by
          have := congrArg List.length hcs
          simp only [List.length_append, List.length_cons] at this
          omega
        by_cases hm2 : ('\n' :: (sp 8 ++ [']'])).isPrefixOf r = true
        · obtain ⟨r2, hr2⟩ := List.isPrefixOf_iff_prefix.mp hm2
          have hm2b : ('"' :: '\n' :: (sp 8 ++ [']'])).isPrefixOf
              ('"' :: r) = true := by
            rw [List.isPrefixOf_iff_prefix, List.cons_prefix_cons]
            exact ⟨rfl, List.isPrefixOf_iff_prefix.mp hm2⟩
          rw [show replaceAllAux '"' ('\n' :: (sp 8 ++ [']']))
              ['"', ' ', ']'] ('"' :: r) =
              if ('"' :: '\n' :: (sp 8 ++ [']'])).isPrefixOf ('"' :: r) then
                ['"', ' ', ']'] ++ replaceAllAux '"'
                  ('\n' :: (sp 8 ++ [']'])) ['"', ' ', ']']
                  (r.drop ('\n' :: (sp 8 ++ [']'])).length)
              else '"' :: replaceAllAux '"' ('\n' :: (sp 8 ++ [']']))
                ['"', ' ', ']'] r from by
            simp only [replaceAllAux]]
          rw [if_pos hm2b]
          have hdrop : r.drop ('\n' :: (sp 8 ++ [']'])).length = r2 := by
            rw [← hr2]
            exact List.drop_left _ _
          rw [hdrop]
          -- the original tail lexes: newline, spaces, bracket, then r2
          rw [← hr2] at hlexr
          rw [show ('\n' :: (sp 8 ++ [']'])) ++ r2 =
              '\n' :: (sp 8 ++ (']' :: r2)) from by simp] at hlexr
          rw [lexToks_ws (by decide), lexToks_ws_append (ws_sp 8),
            lexToks_tok (by decide : tokOf ']' = some Tok.rbrack)] at hlexr
          cases hlc : lexToks r2 with
          | none =>
            rw [hlc] at hlexr
            exact Option.noConfusion hlexr
          | some ts3 =>
            rw [hlc, Option.map_some'] at hlexr
            have hlen2 : r2.length ≤ N := by
              have := congrArg List.length hr2
              simp only [List.length_append, List.length_cons] at this
              omega
            obtain ⟨hb2, happ⟩ := lexStrBody_append hbody
              (' ' :: (']' :: replaceAllAux '"' ('\n' :: (sp 8 ++ [']']))
                ['"', ' ', ']'] r2))
            rw [show raw ++ (['"', ' ', ']'] ++ replaceAllAux '"'
                ('\n' :: (sp 8 ++ [']'])) ['"', ' ', ']'] r2) =
                raw ++ '"' :: (' ' :: (']' :: replaceAllAux '"'
                  ('\n' :: (sp 8 ++ [']'])) ['"', ' ', ']'] r2)) from by
              simp]
            rw [lexToks_quote_step happ, lexToks_ws (by decide),
              lexToks_tok (by decide : tokOf ']' = some Tok.rbrack),
              ih r2 hlen2 ts3 hlc, Option.map_some', Option.map_some']
            have hts2 : ts2 = Tok.rbrack :: ts3 := (Option.some.inj hlexr).symm
            rw [hts, hts2]
        · have hne3 : ¬ ('"' :: '\n' :: (sp 8 ++ [']'])).isPrefixOf
              ('"' :: r) = true := by
            intro hp
            exact hm2 (List.isPrefixOf_iff_prefix.mpr
              (List.cons_prefix_cons.mp
                (List.isPrefixOf_iff_prefix.mp hp)).2)
          rw [show replaceAllAux '"' ('\n' :: (sp 8 ++ [']']))
              ['"', ' ', ']'] ('"' :: r) =
              if ('"' :: '\n' :: (sp 8 ++ [']'])).isPrefixOf ('"' :: r) then
                ['"', ' ', ']'] ++ replaceAllAux '"'
                  ('\n' :: (sp 8 ++ [']'])) ['"', ' ', ']']
                  (r.drop ('\n' :: (sp 8 ++ [']'])).length)
              else '"' :: replaceAllAux '"' ('\n' :: (sp 8 ++ [']']))
                ['"', ' ', ']'] r from by
            simp only [replaceAllAux]]
          rw [if_neg hne3]
          obtain ⟨hb2, happ⟩ := lexStrBody_append hbody
            (replaceAllAux '"' ('\n' :: (sp 8 ++ [']'])) ['"', ' ', ']'] r)
          rw [lexToks_quote_step happ, ih r hlr ts2 hlexr,
            Option.map_some', hts]
      · by_cases hcw : isWS c = true
        · have hne : ¬ ('"' :: '\n' :: (sp 8 ++ [']'])).isPrefixOf
              (c :: cs) = true := by
            intro hp
            exact hcq (List.cons_prefix_cons.mp
              (List.isPrefixOf_iff_prefix.mp hp)).1.symm
          rw [show replaceAllAux '"' ('\n' :: (sp 8 ++ [']']))
              ['"', ' ', ']'] (c :: cs) =
              if ('"' :: '\n' :: (sp 8 ++ [']'])).isPrefixOf (c :: cs) then
                ['"', ' ', ']'] ++ replaceAllAux '"'
                  ('\n' :: (sp 8 ++ [']'])) ['"', ' ', ']']
                  (cs.drop ('\n' :: (sp 8 ++ [']'])).length)
              else c :: replaceAllAux '"' ('\n' :: (sp 8 ++ [']']))
                ['"', ' ', ']'] cs from by
            simp only [replaceAllAux]]
          rw [if_neg hne, lexToks_ws hcw]
          rw [lexToks_ws hcw] at hlex
          exact ih cs (by omega) ts hlex
        · have hne : ¬ ('"' :: '\n' :: (sp 8 ++ [']'])).isPrefixOf
              (c :: cs) = true := by
            intro hp
            exact hcq (List.cons_prefix_cons.mp
              (List.isPrefixOf_iff_prefix.mp hp)).1.symm
          rw [show replaceAllAux '"' ('\n' :: (sp 8 ++ [']']))
              ['"', ' ', ']'] (c :: cs) =
              if ('"' :: '\n' :: (sp 8 ++ [']'])).isPrefixOf (c :: cs) then
                ['"', ' ', ']'] ++ replaceAllAux '"'
                  ('\n' :: (sp 8 ++ [']'])) ['"', ' ', ']']
                  (cs.drop ('\n' :: (sp 8 ++ [']'])).length)
              else c :: replaceAllAux '"' ('\n' :: (sp 8 ++ [']']))
                ['"', ' ', ']'] cs from by
            simp only [replaceAllAux]]
          rw [if_neg hne]
          cases hta : tokOf c with
          | none =>
            rw [lexToks_fail (by rwa [Bool.not_eq_true] at hcw) hcq hta]
              at hlex
            exact Option.noConfusion hlex
          | some t =>
            rw [lexToks_tok hta] at hlex
            rw [lexToks_tok hta]
            cases hlc : lexToks cs with
            | none =>
              rw [hlc] at hlex
              exact Option.noConfusion hlex
            | some ts2 =>
              rw [hlc, Option.map_some'] at hlex
              rw [ih cs (by omega) ts2 hlc, Option.map_some']
              exact hlex

/-- The three compaction replacements preserve the token stream of any
lexable text. -/
theorem lexToks_compact3 {s : List Char} {ts : List Tok}
    (h : lexToks s = some ts) : lexToks (compact3 s) = some ts := by
  rw [compact3]
  rw [show replaceAll ('[' :: '\n' :: sp 10) ['[', ' '] s =
      replaceAllAux '[' ('\n' :: sp 10) ['[', ' '] s from rfl]
  rw [show replaceAll ('"' :: '\n' :: (sp 8 ++ [']'])) ['"', ' ', ']'] =
      replaceAllAux '"' ('\n' :: (sp 8 ++ [']'])) ['"', ' ', ']'] from rfl]
  rw [show replaceAll (',' :: '\n' :: sp 10) [',', ' '] =
      replaceAllAux ',' ('\n' :: sp 10) [',', ' '] from rfl]
  have h1 := replace_punct_pres '[' (sp 10) (ws_sp 10) (by decide)
    (by decide) s.length s le_rfl ts h
  have h2 := replace_quote_pres _ _ le_rfl ts h1
  exact replace_punct_pres ',' (sp 10) (ws_sp 10) (by decide)
    (by decide) _ _ le_rfl ts h2

/-- The compacted and uncompacted serializations parse identically. -/
theorem parseJson_emit (j : Json) :
    parseJson (emitLock j) = parseJson (serializeJson j) := by
  rw [emitLock]
  have hl : lexToks (serializeJson j) = some (toksVal (canon j)) :=
    lexToks_serialize j
  rw [parseJson, parseJson, hl, lexToks_compact3 hl]

/-- Key-sorting an object's entries permutes them. -/
theorem insKey_perm (e : String × Json) (m : List (String × Json)) :
    List.Perm (insKey e m) (e :: m) := by
  induction m with
  | nil => exact List.Perm.refl _
  | cons x xs ih =>
    rw [insKey]
    by_cases h : strLE e.1 x.1 = true
    · rw [if_pos h]
    · rw [if_neg h]
      exact (ih.cons x).trans (List.Perm.swap e x xs)

/-- `sortKeys` permutes the entry list. -/
theorem sortKeys_perm (m : List (String × Json)) :
    List.Perm (sortKeys m) m := by
  induction m with
  | nil => exact List.Perm.refl _
  | cons e m2 ih =>
    rw [show sortKeys (e :: m2) = insKey e (sortKeys m2) from rfl]
    exact (insKey_perm e (sortKeys m2)).trans (ih.cons e)

mutual

/-- Canonicalization only reorders object entries: the canonical value is
structurally identical to the original up to key order. -/
theorem canon_equiv : ∀ j : Json, JEquiv (canon j) j
  | Json.str s => by
    rw [show canon (Json.str s) = Json.str s from by rw [canon]]
    exact JEquiv.str s
  | Json.arr l => by
    rw [show canon (Json.arr l) = Json.arr (canonList l) from by rw [canon]]
    exact JEquiv.arr (canonList_equiv l)
  | Json.obj m => by
    rw [show canon (Json.obj m) = Json.obj (sortKeys (canonObj m)) from by
      rw [canon]]
    exact JEquiv.obj (sortKeys_perm (canonObj m)) (canonObj_equiv m)

/-- Elementwise canonicalization of array elements. -/
theorem canonList_equiv : ∀ l : List Json, JEquivList (canonList l) l
  | [] => by
    rw [show canonList [] = [] from by rw [canonList]]
    exact JEquivList.nil
  | j :: l2 => by
    rw [show canonList (j :: l2) = canon j :: canonList l2 from by
      rw [canonList]]
    exact JEquivList.cons (canon_equiv j) (canonList_equiv l2)

/-- Pointwise canonicalization of object entry values. -/
theorem canonObj_equiv : ∀ m : List (String × Json),
    JEquivObj (canonObj m) m
  | [] => by
    rw [show canonObj [] = [] from by rw [canonObj]]
    exact JEquivObj.nil
  | (k, j) :: m2 => by
    rw [show canonObj ((k, j) :: m2) = (k, canon j) :: canonObj m2 from by
      rw [canonObj]]
    exact JEquivObj.cons k (canon_equiv j) (canonObj_equiv m2)

end

/-- C8: for every dream-lock document, parsing the canonical serialized
text (sorted keys, then the three short-array compactions) succeeds and
yields exactly the canonicalized document, which is structurally identical
to the serialized document ignoring object key order; and the single-line
compaction of short arrays is pure formatting: the compacted and
uncompacted texts parse to the same result. -/
theorem claim_C8 (lock : DreamLock) :
    parseJson (emitLock (lockToJson lock)) =
      some (canon (lockToJson lock)) ∧
    JEquiv (canon (lockToJson lock)) (lockToJson lock) ∧
    parseJson (emitLock (lockToJson lock)) =
      parseJson (serializeJson (lockToJson lock)) := by
  refine ⟨?_, canon_equiv _, parseJson_emit _⟩
  rw [parseJson_emit, parseJson_serialize]

end DreamPkg
